import Mathlib

/-!
Verification of the gosonett lexer (`src/lexer/lexer.go`) against its
natural-language specification.

The Go code is embedded shallowly:
* a Go `string` becomes `List Char` (every byte of a Go source string is a
  value below 256, so `Char` is a faithful carrier);
* the mutable `Lexer` struct becomes a record that is threaded explicitly;
* Go panics (out-of-range indexing, `panic(err)`, the unknown-character
  panic) and the fatal "Unhandled end of input" errors become `Except.error`;
* the `for` loops of the Go code become structural recursion on an explicit
  fuel argument; the top-level entry points pass fuel that is larger than
  any possible number of iterations, and a distinct `.error "fuel"` marks
  fuel exhaustion so that it can never be confused with a real abort.
-/

/-- Modelled from the spec: the `token` package of the repository is not part
of `src/`; §3 of the spec defines `TokenKind` as a closed enumeration of
structural kinds, operators, literals, keywords and the sentinel `EOF`. -/
inductive TokenType where
  | LBRACE | RBRACE | LBRACKET | RBRACKET | COMMA | DOT | LPAREN | RPAREN
  | SEMICOLON | COLON
  | BANG | DOLLAR | TILDE | PLUS | MINUS | AMP | PIPE | CARET | ASSIGN
  | LANGLE | RANGLE | STAR | SLASH | PERC
  | STRING | IDENT
  | ASSERT | ERROR | IF | THEN | ELSE | TRUE | FALSE | FOR | FUNCTION
  | IMPORT | IMPORTSTR | TAILSTRICT | IN | LOCAL | NULL | SELF | SUPER
  | EOF
  deriving DecidableEq, BEq, Repr

/-- Modelled from the spec: §3, a token is an immutable value holding a kind
and the matched lexeme. The Go field names are `Type` and `Value`; `Type` is
a reserved word in Lean, so the fields are lowercased. -/
structure Token where
  type : TokenType
  value : List Char
  deriving DecidableEq, BEq, Repr

/-- Modelled from the spec: §3 and §4.3, the static table mapping each of the
17 reserved keyword lexemes to its dedicated kind. -/
def keywordTable : List (List Char × TokenType) :=
  [ ("assert".toList, .ASSERT), ("error".toList, .ERROR), ("if".toList, .IF),
    ("then".toList, .THEN), ("else".toList, .ELSE), ("true".toList, .TRUE),
    ("false".toList, .FALSE), ("for".toList, .FOR),
    ("function".toList, .FUNCTION), ("import".toList, .IMPORT),
    ("importstr".toList, .IMPORTSTR), ("tailstrict".toList, .TAILSTRICT),
    ("in".toList, .IN), ("local".toList, .LOCAL), ("null".toList, .NULL),
    ("self".toList, .SELF), ("super".toList, .SUPER) ]

/-- Modelled from the spec: §4.3, `token.GetKeywordKind` — exact-match,
case-sensitive lookup in the static keyword table, `IDENT` when absent. -/
def getKeywordKind (s : List Char) : TokenType :=
  match keywordTable.find? (fun p => p.1 == s) with
  | some p => p.2
  | none => .IDENT

/-- LexerPosition from lexer.go lines 10-13. -/
structure LexerPosition where
  line : Nat
  lineChar : Nat
  deriving DecidableEq, BEq, Repr

/-- NextLine, lexer.go lines 15-18. -/
def LexerPosition.nextLine (p : LexerPosition) : LexerPosition :=
  ⟨p.line + 1, 0⟩

/-- NextChar on positions, lexer.go lines 20-22. -/
def LexerPosition.nextChar (p : LexerPosition) : LexerPosition :=
  ⟨p.line, p.lineChar + 1⟩

/-- The Lexer struct, lexer.go lines 28-35. -/
structure Lexer where
  source : List Char
  tokens : List Token
  position : LexerPosition
  index : Nat
  sourceLength : Nat
  reachedEnd : Bool
  deriving DecidableEq, BEq, Repr

/-- The EOF sentinel character, lexer.go line 37. -/
def EOF : Char := Char.ofNat 0

/-- New, lexer.go lines 39-47. -/
def Lexer.new (source : List Char) : Lexer :=
  { source := source, tokens := [], position := ⟨0, 0⟩, index := 0,
    sourceLength := source.length, reachedEnd := false }

/-- willOverflow, lexer.go lines 49-51. -/
def Lexer.willOverflow (l : Lexer) : Bool :=
  l.index + 1 ≥ l.sourceLength

/-- CurrentChar, lexer.go lines 54-60. The Go code indexes
`l.Source[l.index]` unguarded when `reachedEnd` is false; `none` models the
out-of-range panic that raw indexing raises when the index is not in range. -/
def Lexer.currentChar (l : Lexer) : Option Char :=
  if l.reachedEnd then some EOF
  else l.source[l.index]?

/-- invalidOverflow, lexer.go lines 65-77. Mutates `reachedEnd` the first
time the cursor is about to overflow, so the updated lexer is returned with
the flag. -/
def Lexer.invalidOverflow (l : Lexer) : Bool × Lexer :=
  if l.willOverflow then
    if l.reachedEnd = false then (false, { l with reachedEnd := true })
    else (true, l)
  else (false, l)

/-- NextChar, lexer.go lines 79-94. -/
def Lexer.nextChar (l : Lexer) : Except String (Char × Lexer) :=
  let ov := l.invalidOverflow
  if ov.1 then .error "Unhandled end of input looking for the next character"
  else
    match ov.2.currentChar with
    | none => .error "panic: index out of range"
    | some char =>
      let l1 := { ov.2 with index := ov.2.index + 1 }
      let l2 := if char = '\n' then { l1 with position := l1.position.nextLine }
                else { l1 with position := l1.position.nextChar }
      .ok (char, l2)

/-- Peek, lexer.go lines 97-103. After `invalidOverflow` returns false the Go
code indexes `l.Source[l.index+1]` unguarded; `none` there models the
out-of-range panic. -/
def Lexer.peek (l : Lexer) : Except String (Char × Lexer) :=
  let ov := l.invalidOverflow
  if ov.1 then .error "Unhandled end of input peeking the next character"
  else
    match ov.2.source[ov.2.index + 1]? with
    | none => .error "panic: index out of range"
    | some c => .ok (c, ov.2)

/-- Call sites such as lexer.go lines 198, 217, 226 and 251 invoke
`l.NextChar()` and discard both return values. When `NextChar` errors it has
performed no mutation, so the discarded-call state is the original lexer. -/
def Lexer.nextCharD (l : Lexer) : Lexer :=
  match l.nextChar with
  | .ok r => r.2
  | .error _ => l

/-- Go `unicode.IsSpace` restricted to the Latin-1 range, the only values a
byte of a Go source string can take. -/
def unicodeIsSpace (c : Char) : Bool :=
  c == Char.ofNat 9 || c == Char.ofNat 10 || c == Char.ofNat 11 ||
  c == Char.ofNat 12 || c == Char.ofNat 13 || c == Char.ofNat 32 ||
  c == Char.ofNat 133 || c == Char.ofNat 160

/-- Go `unicode.IsUpper` restricted to the Latin-1 range. -/
def unicodeIsUpper (c : Char) : Bool :=
  (65 ≤ c.toNat && c.toNat ≤ 90) || (192 ≤ c.toNat && c.toNat ≤ 214) ||
  (216 ≤ c.toNat && c.toNat ≤ 222)

/-- Go `unicode.IsLower` restricted to the Latin-1 range. -/
def unicodeIsLower (c : Char) : Bool :=
  (97 ≤ c.toNat && c.toNat ≤ 122) || c.toNat == 181 ||
  (223 ≤ c.toNat && c.toNat ≤ 246) || (248 ≤ c.toNat && c.toNat ≤ 255)

/-- Go `unicode.IsNumber` restricted to the Latin-1 range. -/
def unicodeIsNumber (c : Char) : Bool :=
  (48 ≤ c.toNat && c.toNat ≤ 57) || c.toNat == 178 || c.toNat == 179 ||
  c.toNat == 185 || c.toNat == 188 || c.toNat == 189 || c.toNat == 190

/-- isIdentifierFirst, lexer.go lines 291-293. -/
def isIdentifierFirst (r : Char) : Bool :=
  unicodeIsUpper r || unicodeIsLower r || r == Char.ofNat 95

/-- isIdentifier, lexer.go lines 295-297. -/
def isIdentifier (r : Char) : Bool :=
  isIdentifierFirst r || unicodeIsNumber r

/-- eatWhitespace, lexer.go lines 223-228. The loop discards the result of
`NextChar` entirely. -/
def eatWhitespace (fuel : Nat) (l : Lexer) : Except String Lexer :=
  match fuel with
  | 0 => .error "fuel"
  | fuel + 1 =>
    match l.currentChar with
    | none => .error "panic: index out of range"
    | some c =>
      if unicodeIsSpace c then eatWhitespace fuel l.nextCharD
      else .ok l

/-- eatUntil, lexer.go lines 231-245. Accumulates every consumed character
(including the sentinel produced by the end-of-source flip) and panics, via
`.error`, when `NextChar` reports unhandled end of input. -/
def eatUntil (fuel : Nat) (l : Lexer) (untilChar : Char) :
    Except String (List Char × Lexer) :=
  match fuel with
  | 0 => .error "fuel"
  | fuel + 1 =>
    match l.currentChar with
    | none => .error "panic: index out of range"
    | some c =>
      if c = untilChar then .ok ([], l)
      else
        match l.nextChar with
        | .error e => .error e
        | .ok (ch, l1) =>
          match eatUntil fuel l1 untilChar with
          | .error e => .error e
          | .ok (rest, l2) => .ok (ch :: rest, l2)

/-- eatUntilAfter, lexer.go lines 247-254. The trailing `NextChar` discards
its results. -/
def eatUntilAfter (fuel : Nat) (l : Lexer) (untilChar : Char) :
    Except String (List Char × Lexer) :=
  match eatUntil fuel l untilChar with
  | .error e => .error e
  | .ok (s, l1) => .ok (s, l1.nextCharD)

/-- eatCurrentLine, lexer.go lines 256-258. -/
def eatCurrentLine (fuel : Nat) (l : Lexer) : Except String Lexer :=
  match eatUntilAfter fuel l '\n' with
  | .error e => .error e
  | .ok (_, l1) => .ok l1

/-- The scanning loop of lexIdentifier, lexer.go lines 267-277. -/
def lexIdentLoop (fuel : Nat) (l : Lexer) : Except String Lexer :=
  match fuel with
  | 0 => .error "fuel"
  | fuel + 1 =>
    match l.currentChar with
    | none => .error "panic: index out of range"
    | some c =>
      if isIdentifier c then
        match l.nextChar with
        | .error e => .error e
        | .ok (ch, l1) => if ch = EOF then .ok l1 else lexIdentLoop fuel l1
      else .ok l

/-- lexIdentifier, lexer.go lines 264-288. `Source[startIndex:l.index]` is
`(take l.index).drop startIndex`; the trailing `l.index--` is Nat
subtraction, which agrees with the Go int decrement because every call made
by `Tokenize` has advanced the index at least once before the decrement. -/
def Lexer.lexIdentifier (fuel : Nat) (l : Lexer) :
    Except String (Token × Lexer) :=
  let startIndex := l.index
  match lexIdentLoop fuel l with
  | .error e => .error e
  | .ok l1 =>
    let ident := (l1.source.take l1.index).drop startIndex
    let l2 := { l1 with index := l1.index - 1 }
    .ok (⟨getKeywordKind ident, ident⟩, l2)

/-- Lines 213-219 of Tokenize: append the produced token to `l.Tokens`, then
advance once more (discarding the `NextChar` results) and return the token. -/
def emitToken (l : Lexer) (tok : Token) : Token × Lexer :=
  (tok, ({ l with tokens := l.tokens ++ [tok] }).nextCharD)

/-- Tokenize, lexer.go lines 114-220. The Go `switch` is an ordered
first-match construct, rendered as the same chain of character comparisons.
The `'/'` branch peeks; the empty Go `peekedChar == '*'` body (unimplemented
multi-line comments) falls through to `SLASH` exactly as the source does. -/
def tokenize (fuel : Nat) (l : Lexer) : Except String (Token × Lexer) :=
  match fuel with
  | 0 => .error "fuel"
  | fuel + 1 =>
    match eatWhitespace fuel l with
    | .error e => .error e
    | .ok l =>
      match l.currentChar with
      | none => .error "panic: index out of range"
      | some char =>
        let str : List Char := [char]
        if char = EOF then .ok (emitToken l ⟨.EOF, "(EOF)".toList⟩)
        else if char = '{' then .ok (emitToken l ⟨.LBRACE, str⟩)
        else if char = '}' then .ok (emitToken l ⟨.RBRACE, str⟩)
        else if char = '[' then .ok (emitToken l ⟨.LBRACKET, str⟩)
        else if char = ']' then .ok (emitToken l ⟨.RBRACKET, str⟩)
        else if char = ',' then .ok (emitToken l ⟨.COMMA, str⟩)
        else if char = '.' then .ok (emitToken l ⟨.DOT, str⟩)
        else if char = '(' then .ok (emitToken l ⟨.LPAREN, str⟩)
        else if char = ')' then .ok (emitToken l ⟨.RPAREN, str⟩)
        else if char = ';' then .ok (emitToken l ⟨.SEMICOLON, str⟩)
        else if char = '!' then .ok (emitToken l ⟨.BANG, str⟩)
        else if char = '$' then .ok (emitToken l ⟨.DOLLAR, str⟩)
        else if char = ':' then .ok (emitToken l ⟨.COLON, str⟩)
        else if char = '~' then .ok (emitToken l ⟨.TILDE, str⟩)
        else if char = '+' then .ok (emitToken l ⟨.PLUS, str⟩)
        else if char = '-' then .ok (emitToken l ⟨.MINUS, str⟩)
        else if char = '&' then .ok (emitToken l ⟨.AMP, str⟩)
        else if char = '|' then .ok (emitToken l ⟨.PIPE, str⟩)
        else if char = '^' then .ok (emitToken l ⟨.CARET, str⟩)
        else if char = '=' then .ok (emitToken l ⟨.ASSIGN, str⟩)
        else if char = '<' then .ok (emitToken l ⟨.LANGLE, str⟩)
        else if char = '>' then .ok (emitToken l ⟨.RANGLE, str⟩)
        else if char = '*' then .ok (emitToken l ⟨.STAR, str⟩)
        else if char = '/' then
          match l.peek with
          | .error e => .error e
          | .ok (peekedChar, l) =>
            if peekedChar = '/' then
              match eatCurrentLine fuel l with
              | .error e => .error e
              | .ok l => tokenize fuel l
            else .ok (emitToken l ⟨.SLASH, str⟩)
        else if char = '%' then .ok (emitToken l ⟨.PERC, str⟩)
        else if char = '#' then
          match eatCurrentLine fuel l with
          | .error e => .error e
          | .ok l => tokenize fuel l
        else if char = '"' ∨ char = Char.ofNat 39 then
          let l := l.nextCharD
          match eatUntil fuel l char with
          | .error e => .error e
          | .ok (stringValue, l) => .ok (emitToken l ⟨.STRING, stringValue⟩)
        else if isIdentifierFirst char then
          match l.lexIdentifier fuel with
          | .error e => .error e
          | .ok (tok, l) => .ok (emitToken l tok)
        else .error "panic: Unknown lexing character"

/-- The loop of Lex, lexer.go lines 106-111: tokenize until the produced
token is `EOF`, then return the accumulated `l.Tokens`. -/
def lexLoop (fuel : Nat) (tfuel : Nat) (l : Lexer) :
    Except String (List Token) :=
  match fuel with
  | 0 => .error "fuel"
  | fuel + 1 =>
    match tokenize tfuel l with
    | .error e => .error e
    | .ok (tok, l1) =>
      if tok.type = TokenType.EOF then .ok l1.tokens
      else lexLoop fuel tfuel l1

/-- Lex, lexer.go lines 106-111. The fuel values strictly dominate the
number of loop iterations any input of this length can produce. -/
def Lexer.lex (l : Lexer) : Except String (List Token) :=
  lexLoop (l.sourceLength + 4) (2 * l.sourceLength + 24) l

/-- Lexing a whole source from a fresh lexer, as the tests do. -/
def lexString (s : List Char) : Except String (List Token) :=
  (Lexer.new s).lex

/-- Proof helper: iterate `NextChar` (with discarded results) a fixed number
of times, used to speak about consumed prefixes of the source. -/
def consumeN (n : Nat) (l : Lexer) : Lexer :=
  match n with
  | 0 => l
  | n + 1 => (consumeN n l).nextCharD

/-- Proof helper: the position update of NextChar folded over a list of
consumed characters. -/
def posFold (p : LexerPosition) (cs : List Char) : LexerPosition :=
  cs.foldl (fun q ch => if ch = '\n' then q.nextLine else q.nextChar) p

/-- Proof helper: the termination measure of the cursor — remaining distance
to the end of the source plus one unit for the pending end flip. -/
def Lexer.fuelMeasure (l : Lexer) : Nat :=
  (l.sourceLength + 1 - l.index) + (if l.reachedEnd then 0 else 1)

example : lexString ['!'] =
    .ok [⟨.BANG, ['!']⟩, ⟨.EOF, "(EOF)".toList⟩] := rfl

example : lexString ['/'] = .error "panic: index out of range" := rfl

example : lexString [] = .error "panic: index out of range" := rfl

/-! ### Cursor-step lemmas -/

theorem currentChar_of_reachedEnd {l : Lexer} (h : l.reachedEnd = true) :
    l.currentChar = some EOF := by
  simp [Lexer.currentChar, h]

theorem currentChar_of_live {l : Lexer} (h : l.reachedEnd = false) :
    l.currentChar = l.source[l.index]? := by
  simp [Lexer.currentChar, h]

/-- A successful read strictly inside the source: no end flip, the byte at
the cursor is returned. -/
theorem nextChar_normal {l : Lexer} {c : Char}
    (hre : l.reachedEnd = false) (hov : l.index + 1 < l.sourceLength)
    (hc : l.source[l.index]? = some c) :
    l.nextChar = .ok (c,
      if c = '\n' then
        { l with
          index := l.index + 1,
          position := l.position.nextLine }
      else
        { l with
          index := l.index + 1,
          position := l.position.nextChar }) := by
  simp only [Lexer.nextChar, Lexer.invalidOverflow, Lexer.willOverflow,
    Lexer.currentChar, hre, hc]
  simp [Nat.not_le.mpr hov, hre, hc]

/-- Reading while the cursor sits on the final byte: the end flip happens
first, so the sentinel is returned instead of the byte and the position is
bumped one column (never one line). -/
theorem nextChar_flip {l : Lexer}
    (hre : l.reachedEnd = false) (hov : l.sourceLength ≤ l.index + 1) :
    l.nextChar = .ok (EOF,
      { l with
        index := l.index + 1,
        position := l.position.nextChar,
        reachedEnd := true }) := by
  simp only [Lexer.nextChar, Lexer.invalidOverflow, Lexer.willOverflow,
    Lexer.currentChar, hre]
  simp [hov, EOF]

/-- Reading after the end flip with the overflow guard active fails. -/
theorem nextChar_end_error {l : Lexer}
    (hre : l.reachedEnd = true) (hov : l.sourceLength ≤ l.index + 1) :
    l.nextChar = .error "Unhandled end of input looking for the next character" := by
  simp [Lexer.nextChar, Lexer.invalidOverflow, Lexer.willOverflow, hre, hov]

/-- Reading after the end flip while the guard is inactive (only possible in
states the lexing entry points never build, but the definition covers it). -/
theorem nextChar_end_normal {l : Lexer}
    (hre : l.reachedEnd = true) (hov : l.index + 1 < l.sourceLength) :
    l.nextChar = .ok (EOF,
      { l with
        index := l.index + 1,
        position := l.position.nextChar }) := by
  simp only [Lexer.nextChar, Lexer.invalidOverflow, Lexer.willOverflow,
    Lexer.currentChar, hre]
  simp [Nat.not_le.mpr hov, hre, EOF]

theorem nextCharD_of_ok {l l1 : Lexer} {c : Char}
    (h : l.nextChar = .ok (c, l1)) : l.nextCharD = l1 := by
  simp [Lexer.nextCharD, h]

theorem nextCharD_of_error {l : Lexer} {e : String}
    (h : l.nextChar = .error e) : l.nextCharD = l := by
  simp [Lexer.nextCharD, h]

/-! ### Character-class facts -/

/-- The characters the Tokenize switch treats specially, in source order. -/
def dispatchChars : List Char :=
  [EOF, '{', '}', '[', ']', ',', '.', '(', ')', ';', '!', '$', ':', '~',
   '+', '-', '&', '|', '^', '=', '<', '>', '*', '/', '%', '#', '"',
   Char.ofNat 39]

theorem identFirst_not_dispatch :
    ∀ x ∈ dispatchChars, isIdentifierFirst x = false := by decide

theorem space_chars {c : Char} (h : unicodeIsSpace c = true) :
    c = Char.ofNat 9 ∨ c = Char.ofNat 10 ∨ c = Char.ofNat 11 ∨
    c = Char.ofNat 12 ∨ c = Char.ofNat 13 ∨ c = Char.ofNat 32 ∨
    c = Char.ofNat 133 ∨ c = Char.ofNat 160 := by
  simp [unicodeIsSpace] at h
  tauto

theorem identFirst_not_space {c : Char} (h : isIdentifierFirst c = true) :
    unicodeIsSpace c = false := by
  by_contra hs
  rcases space_chars (Bool.of_not_eq_false hs) with
    rfl | rfl | rfl | rfl | rfl | rfl | rfl | rfl <;>
    exact absurd h (by decide)

theorem ident_ne_nul {c : Char} (h : isIdentifier c = true) : ¬ c = EOF := by
  rintro rfl; exact absurd h (by decide)

theorem ident_ne_newline {c : Char} (h : isIdentifier c = true) :
    ¬ c = '\n' := by
  rintro rfl; exact absurd h (by decide)

theorem identFirst_isIdent {c : Char} (h : isIdentifierFirst c = true) :
    isIdentifier c = true := by
  simp [isIdentifier, h]

/-! ### List access utilities -/

theorem getElem_of_drop_cons {s : List Char} {n : Nat} {c : Char}
    {r : List Char} (h : s.drop n = c :: r) : s[n]? = some c := by
  have h0 := List.getElem?_drop s n 0
  rw [h] at h0
  simpa using h0.symm

theorem drop_succ_of_drop_cons {s : List Char} {n : Nat} {c : Char}
    {r : List Char} (h : s.drop n = c :: r) : s.drop (n + 1) = r := by
  have h0 : (s.drop n).drop 1 = s.drop (n + 1) := by
    rw [List.drop_drop]
  rw [h] at h0
  simpa using h0.symm

theorem length_of_drop_cons {s : List Char} {n : Nat} {c : Char}
    {r : List Char} (h : s.drop n = c :: r) :
    s.length = n + r.length + 1 := by
  have h1 : (s.drop n).length = s.length - n := List.length_drop n s
  rw [h] at h1
  have h2 : ¬ s.length ≤ n := by
    intro hle
    rw [List.drop_eq_nil_of_le hle] at h
    exact List.noConfusion h
  simp at h1
  omega

theorem mem_drop_succ {s : List Char} {n : Nat} {u : Char}
    (h : u ∈ s.drop (n + 1)) : u ∈ s.drop n := by
  have h1 : (s.drop n).drop 1 = s.drop (n + 1) := by rw [List.drop_drop]
  exact List.drop_subset 1 (s.drop n) (h1 ▸ h)

theorem posFold_cons (p : LexerPosition) (c : Char) (cs : List Char) :
    posFold p (c :: cs) =
      posFold (if c = '\n' then p.nextLine else p.nextChar) cs := rfl

/-! ### Whitespace elision -/

theorem eatWhitespace_nospace {l : Lexer} {c : Char} (fuel : Nat)
    (hc : l.currentChar = some c) (hs : unicodeIsSpace c = false) :
    eatWhitespace (fuel + 1) l = .ok l := by
  simp [eatWhitespace, hc, hs]

/-! ### eatUntil: failure when the stop character never occurs -/

/-- When `untilChar` is not the sentinel and does not occur at or after the
cursor, `eatUntil` runs off the end of the source and aborts with the
"Unhandled end of input" failure of `NextChar`. -/
theorem eatUntil_not_found {u : Char} (hu : ¬ u = EOF) :
    ∀ (fuel : Nat) (l : Lexer),
      l.sourceLength = l.source.length →
      (l.reachedEnd = false → l.index < l.source.length) →
      u ∉ l.source.drop l.index →
      l.fuelMeasure + 1 ≤ fuel →
      eatUntil fuel l u =
        .error "Unhandled end of input looking for the next character" := by
  intro fuel
  induction fuel with
  | zero => intro l _ _ _ hf; omega
  | succ fuel ih =>
    intro l hwf hsafe hmem hf
    cases hre : l.reachedEnd with
    | true =>
      have hcur := currentChar_of_reachedEnd hre
      by_cases hov : l.sourceLength ≤ l.index + 1
      · have hnx := nextChar_end_error hre hov
        simp [eatUntil, hcur, Ne.symm hu, hnx]
      · have hnx := nextChar_end_normal hre (by omega)
        have hrec := ih { l with index := l.index + 1,
                                 position := l.position.nextChar }
          (by simpa using hwf)
          (by simp [hre])
          (by intro hm; exact hmem (mem_drop_succ hm))
          (by simp [Lexer.fuelMeasure, hre] at hf ⊢; omega)
        simp [eatUntil, hcur, Ne.symm hu, hnx, hrec]
    | false =>
      have hidx : l.index < l.source.length := hsafe hre
      cases hd : l.source.drop l.index with
      | nil =>
        rw [List.drop_eq_nil_iff] at hd
        omega
      | cons c r =>
        have hcur : l.currentChar = some c := by
          rw [currentChar_of_live hre]
          exact getElem_of_drop_cons hd
        have hcu : ¬ c = u := by
          intro hcu
          exact hmem (hd ▸ (hcu ▸ List.mem_cons_self c r))
        have hmem1 : u ∉ l.source.drop (l.index + 1) :=
          fun hm => hmem (mem_drop_succ hm)
        by_cases hov : l.sourceLength ≤ l.index + 1
        · have hnx := nextChar_flip hre hov
          have hrec := ih { l with index := l.index + 1,
                                   position := l.position.nextChar,
                                   reachedEnd := true }
            (by simpa using hwf)
            (by simp)
            (by simpa using hmem1)
            (by simp [Lexer.fuelMeasure, hre] at hf ⊢; omega)
          simp [eatUntil, hcur, hcu, hnx, hrec]
        · have hnx := nextChar_normal hre (by omega) (getElem_of_drop_cons hd)
          by_cases hcn : c = '\n'
          · simp only [hcn, if_pos rfl] at hnx
            have hrec := ih { l with index := l.index + 1,
                                     position := l.position.nextLine }
              (by simpa using hwf)
              (by intro hm; simpa using (by omega : l.index + 1 < l.source.length))
              (by simpa using hmem1)
              (by simp [Lexer.fuelMeasure, hre] at hf ⊢; omega)
            simp [eatUntil, hcur, hcu, hnx, hrec]
          · rw [if_neg hcn] at hnx
            have hrec := ih { l with index := l.index + 1,
                                     position := l.position.nextChar }
              (by simpa using hwf)
              (by intro hm; simpa using (by omega : l.index + 1 < l.source.length))
              (by simpa using hmem1)
              (by simp [Lexer.fuelMeasure, hre] at hf ⊢; omega)
            simp [eatUntil, hcur, hcu, hnx, hrec]

/-! ### Field preservation -/

theorem nextCharD_tokens (l : Lexer) : l.nextCharD.tokens = l.tokens := by
  unfold Lexer.nextCharD Lexer.nextChar Lexer.invalidOverflow Lexer.currentChar
  rcases hg : l.source[l.index]? with _ | ch <;>
  by_cases h1 : l.willOverflow = true <;> by_cases h2 : l.reachedEnd = false <;>
    simp [h1, h2, hg] <;> (repeat' split) <;> simp_all

theorem nextChar_fields {l : Lexer} {c : Char} {l1 : Lexer}
    (h : l.nextChar = .ok (c, l1)) :
    l1.source = l.source ∧ l1.tokens = l.tokens ∧
    l1.sourceLength = l.sourceLength := by
  have hnl : ¬ (EOF = '\n') := by decide
  unfold Lexer.nextChar Lexer.invalidOverflow Lexer.currentChar at h
  rcases hg : l.source[l.index]? with _ | ch <;>
  by_cases h1 : l.willOverflow = true <;> by_cases h2 : l.reachedEnd = false <;>
    simp [h1, h2, hg, hnl] at h <;> (repeat' split at h) <;>
    (try (obtain ⟨heof, hrec⟩ := h; subst hrec)) <;> simp_all

theorem peek_fields {l : Lexer} {c : Char} {l1 : Lexer}
    (h : l.peek = .ok (c, l1)) :
    l1.source = l.source ∧ l1.tokens = l.tokens ∧
    l1.sourceLength = l.sourceLength ∧ l1.index = l.index ∧
    l1.position = l.position := by
  unfold Lexer.peek Lexer.invalidOverflow at h
  rcases hg : l.source[l.index + 1]? with _ | ch <;>
  by_cases h1 : l.willOverflow = true <;> by_cases h2 : l.reachedEnd = false <;>
    simp [h1, h2, hg] at h <;>
    (try (obtain ⟨heof, hrec⟩ := h; subst hrec)) <;> simp_all

theorem eatWhitespace_tokens :
    ∀ (fuel : Nat) (l l1 : Lexer),
      eatWhitespace fuel l = .ok l1 → l1.tokens = l.tokens := by
  intro fuel
  induction fuel with
  | zero => intro l l1 h; simp [eatWhitespace] at h
  | succ fuel ih =>
    intro l l1 h
    unfold eatWhitespace at h
    rcases hc : l.currentChar with _ | c <;> simp only [hc] at h
    · exact Except.noConfusion h
    split at h
    · rw [ih _ _ h, nextCharD_tokens]
    · simp only [Except.ok.injEq] at h
      subst h
      rfl

theorem eatUntil_tokens :
    ∀ (fuel : Nat) (l : Lexer) (u : Char) (cs : List Char) (l1 : Lexer),
      eatUntil fuel l u = .ok (cs, l1) → l1.tokens = l.tokens := by
  intro fuel
  induction fuel with
  | zero => intro l u cs l1 h; simp [eatUntil] at h
  | succ fuel ih =>
    intro l u cs l1 h
    unfold eatUntil at h
    rcases hc : l.currentChar with _ | c <;> simp only [hc] at h
    · exact Except.noConfusion h
    split at h
    · simp only [Except.ok.injEq, Prod.mk.injEq] at h
      obtain ⟨rfl, rfl⟩ := h
      rfl
    · rcases hnx : l.nextChar with e | pr <;> simp only [hnx] at h
      · exact Except.noConfusion h
      obtain ⟨ch, l2⟩ := pr
      rcases heu : eatUntil fuel l2 u with e | pr2 <;> simp only [heu] at h
      · exact Except.noConfusion h
      obtain ⟨rest2, l3⟩ := pr2
      simp only [Except.ok.injEq, Prod.mk.injEq] at h
      obtain ⟨rfl, rfl⟩ := h
      rw [ih _ _ _ _ heu, (nextChar_fields hnx).2.1]

theorem eatCurrentLine_tokens (fuel : Nat) (l l1 : Lexer)
    (h : eatCurrentLine fuel l = .ok l1) : l1.tokens = l.tokens := by
  unfold eatCurrentLine eatUntilAfter at h
  rcases heu : eatUntil fuel l '\n' with e | pr <;> simp only [heu] at h
  · exact Except.noConfusion h
  obtain ⟨cs, l2⟩ := pr
  simp only [Except.ok.injEq] at h
  subst h
  rw [nextCharD_tokens, eatUntil_tokens _ _ _ _ _ heu]

theorem lexIdentLoop_tokens :
    ∀ (fuel : Nat) (l l1 : Lexer),
      lexIdentLoop fuel l = .ok l1 → l1.tokens = l.tokens := by
  intro fuel
  induction fuel with
  | zero => intro l l1 h; simp [lexIdentLoop] at h
  | succ fuel ih =>
    intro l l1 h
    unfold lexIdentLoop at h
    rcases hc : l.currentChar with _ | c <;> simp only [hc] at h
    · exact Except.noConfusion h
    split at h
    · rcases hnx : l.nextChar with e | pr <;> simp only [hnx] at h
      · exact Except.noConfusion h
      obtain ⟨ch, l2⟩ := pr
      split at h
      · simp only [Except.ok.injEq] at h
        subst h
        exact (nextChar_fields hnx).2.1
      · rw [ih _ _ h, (nextChar_fields hnx).2.1]
    · simp only [Except.ok.injEq] at h
      subst h
      rfl

theorem lexIdentifier_tokens (fuel : Nat) (l : Lexer) (tok : Token)
    (l1 : Lexer) (h : l.lexIdentifier fuel = .ok (tok, l1)) :
    l1.tokens = l.tokens := by
  unfold Lexer.lexIdentifier at h
  rcases hil : lexIdentLoop fuel l with e | l2 <;> simp only [hil] at h
  · exact Except.noConfusion h
  simp only [Except.ok.injEq, Prod.mk.injEq] at h
  obtain ⟨rfl, rfl⟩ := h
  simpa using lexIdentLoop_tokens _ _ _ hil

/-! ### eatUntil: success when the stop character occurs -/

/-- Consuming a run that is followed by the stop character: the run is
returned verbatim, the cursor advances to the stop character, and the
position is the fold of the per-character updates. -/
theorem eatUntil_found {u : Char} :
    ∀ (run : List Char) (fuel : Nat) (l : Lexer) (rest : List Char),
      l.sourceLength = l.source.length →
      l.reachedEnd = false →
      l.source.drop l.index = run ++ u :: rest →
      u ∉ run →
      run.length + 1 ≤ fuel →
      eatUntil fuel l u =
        .ok (run, { l with index := l.index + run.length,
                           position := posFold l.position run }) := by
  intro run
  induction run with
  | nil =>
    intro fuel l rest hwf hre hd hmem hf
    match fuel, hf with
    | fuel + 1, _ =>
      have hcur : l.currentChar = some u := by
        rw [currentChar_of_live hre]
        exact getElem_of_drop_cons (by simpa using hd)
      simp [eatUntil, hcur, posFold]
  | cons ch run ih =>
    intro fuel l rest hwf hre hd hmem hf
    match fuel, hf with
    | fuel + 1, hf =>
      have hd1 : l.source.drop l.index = ch :: (run ++ u :: rest) := by
        simpa using hd
      have hcur : l.currentChar = some ch := by
        rw [currentChar_of_live hre]
        exact getElem_of_drop_cons hd1
      have hcu : ¬ ch = u := by
        rintro rfl
        exact hmem (List.mem_cons_self ch run)
      have hlen := length_of_drop_cons hd1
      have hov : l.index + 1 < l.sourceLength := by
        rw [hwf]; simp at hlen; omega
      have hnx := nextChar_normal hre hov (getElem_of_drop_cons hd1)
      have hdrop1 : l.source.drop (l.index + 1) = run ++ u :: rest :=
        drop_succ_of_drop_cons hd1
      by_cases hcn : ch = '\n'
      · simp only [hcn, if_pos rfl] at hnx
        have hrec := ih fuel { l with index := l.index + 1,
                                      position := l.position.nextLine }
          rest (by simpa using hwf) (by simpa using hre)
          (by simpa using hdrop1)
          (fun hm => hmem (List.mem_cons_of_mem ch hm))
          (by simp at hf ⊢; omega)
        have hcu2 : ¬ ('\n' = u) := hcn ▸ hcu
        simp [eatUntil, hcur, hnx, hrec, if_neg hcu2, posFold_cons, hcn]
        rw [show l.index + 1 + run.length = l.index + (run.length + 1) from by
          omega]
      · rw [if_neg hcn] at hnx
        have hrec := ih fuel { l with index := l.index + 1,
                                      position := l.position.nextChar }
          rest (by simpa using hwf) (by simpa using hre)
          (by simpa using hdrop1)
          (fun hm => hmem (List.mem_cons_of_mem ch hm))
          (by simp at hf ⊢; omega)
        simp [eatUntil, hcur, hnx, hrec, if_neg hcu, posFold_cons, hcn]
        rw [show l.index + 1 + run.length = l.index + (run.length + 1) from by
          omega]

/-! ### Identifier scanning -/

/-- The identifier loop consumes exactly the maximal identifier run at the
cursor. If the run exhausts the source, the read of the final byte flips the
end flag and the loop stops on the sentinel; either way the index ends one
past the run. Identifier characters are never newlines, so the position
advances by one column per consumed byte. -/
theorem lexIdentLoop_run :
    ∀ (run : List Char) (fuel : Nat) (l : Lexer) (rest : List Char),
      l.sourceLength = l.source.length →
      l.reachedEnd = false →
      l.source.drop l.index = run ++ rest →
      (∀ x ∈ run, isIdentifier x = true) →
      (∀ y, rest.head? = some y → isIdentifier y = false) →
      (run = [] → rest ≠ []) →
      run.length + 1 ≤ fuel →
      lexIdentLoop fuel l =
        .ok { l with
              index := l.index + run.length,
              position := ⟨l.position.line, l.position.lineChar + run.length⟩,
              reachedEnd := rest.isEmpty } := by
  intro run
  induction run with
  | nil =>
    intro fuel l rest hwf hre hd hrun hrest hne hf
    match fuel, hf with
    | fuel + 1, _ =>
      cases rest with
      | nil => exact absurd rfl (hne rfl)
      | cons y rest2 =>
        have hcur : l.currentChar = some y := by
          rw [currentChar_of_live hre]
          exact getElem_of_drop_cons (by simpa using hd)
        have hy := hrest y rfl
        simp [lexIdentLoop, hcur, hy]
        rw [← hre]
  | cons r run ih =>
    intro fuel l rest hwf hre hd hrun hrest hne hf
    match fuel, hf with
    | fuel + 1, hf =>
      have hd1 : l.source.drop l.index = r :: (run ++ rest) := by
        simpa using hd
      have hcur : l.currentChar = some r := by
        rw [currentChar_of_live hre]
        exact getElem_of_drop_cons hd1
      have hr : isIdentifier r = true := hrun r (List.mem_cons_self r run)
      have hlen := length_of_drop_cons hd1
      have hdrop1 : l.source.drop (l.index + 1) = run ++ rest :=
        drop_succ_of_drop_cons hd1
      cases hrr : run ++ rest with
      | nil =>
        obtain ⟨hrn, hsn⟩ := List.append_eq_nil.mp hrr
        subst hrn; subst hsn
        have hov : l.sourceLength ≤ l.index + 1 := by
          rw [hwf]; simp at hlen; omega
        have hnx := nextChar_flip hre hov
        simp [lexIdentLoop, hcur, hr, hnx, LexerPosition.nextChar]
      | cons z zs =>
        have hov : l.index + 1 < l.sourceLength := by
          rw [hwf]; rw [hrr] at hlen; simp at hlen; omega
        have hnx := nextChar_normal hre hov (getElem_of_drop_cons hd1)
        rw [if_neg (ident_ne_newline hr)] at hnx
        have hrec := ih fuel { l with index := l.index + 1,
                                      position := l.position.nextChar }
          rest (by simpa using hwf) (by simpa using hre)
          (by simpa using hdrop1)
          (fun x hx => hrun x (List.mem_cons_of_mem r hx))
          hrest
          (by intro hrn; simp [hrn] at hrr; simp [hrr])
          (by simp at hf ⊢; omega)
        simp only [LexerPosition.nextChar] at hrec
        simp only [lexIdentLoop, hcur, hr, hnx,
          if_neg (ident_ne_nul hr), LexerPosition.nextChar,
          List.length_cons, if_true, hrec]
        rw [show l.index + 1 + run.length = l.index + (run.length + 1) from by
              omega,
            show l.position.lineChar + 1 + run.length =
                l.position.lineChar + (run.length + 1) from by omega]

/-- lexIdentifier at the start of a maximal identifier run: the token value
is the run verbatim, its kind is the keyword-table lookup on that run, and
the cursor is repositioned to the last byte of the run. -/
theorem lexIdentifier_run (fuel : Nat) (l : Lexer) (run rest : List Char)
    (hwf : l.sourceLength = l.source.length)
    (hre : l.reachedEnd = false)
    (hd : l.source.drop l.index = run ++ rest)
    (hrun : ∀ x ∈ run, isIdentifier x = true)
    (hrest : ∀ y, rest.head? = some y → isIdentifier y = false)
    (hne : run ≠ [])
    (hf : run.length + 1 ≤ fuel) :
    l.lexIdentifier fuel =
      .ok (⟨getKeywordKind run, run⟩,
        { l with
          index := l.index + run.length - 1,
          position := ⟨l.position.line, l.position.lineChar + run.length⟩,
          reachedEnd := rest.isEmpty }) := by
  have hloop := lexIdentLoop_run run fuel l rest hwf hre hd hrun hrest
    (fun h => absurd h hne) hf
  have hident : (l.source.take (l.index + run.length)).drop l.index = run := by
    rw [List.drop_take, hd]
    rw [show l.index + run.length - l.index = run.length from by omega]
    exact List.take_left' rfl
  unfold Lexer.lexIdentifier
  rw [hloop]
  simp only [hident]

theorem identFirst_ne {c : Char} (hfc : isIdentifierFirst c = true)
    (x : Char) (hx : x ∈ dispatchChars) : ¬ c = x := by
  rintro rfl
  rw [identFirst_not_dispatch c hx] at hfc
  exact Bool.noConfusion hfc

/-- Tokenize dispatched at the first byte of a maximal identifier run: none
of the special characters match, the default branch scans the run and emits
one token whose value is the run and whose kind is the keyword lookup. -/
theorem tokenize_identifier (fuel : Nat) (l : Lexer) (run rest : List Char)
    (hwf : l.sourceLength = l.source.length)
    (hre : l.reachedEnd = false)
    (hd : l.source.drop l.index = run ++ rest)
    (hfirst : ∀ x, run.head? = some x → isIdentifierFirst x = true)
    (hrun : ∀ x ∈ run, isIdentifier x = true)
    (hrest : ∀ y, rest.head? = some y → isIdentifier y = false)
    (hne : run ≠ [])
    (hf : run.length + 2 ≤ fuel) :
    tokenize fuel l =
      .ok (⟨getKeywordKind run, run⟩,
        ({ l with
           tokens := l.tokens ++ [Token.mk (getKeywordKind run) run],
           index := l.index + run.length - 1,
           position := ⟨l.position.line, l.position.lineChar + run.length⟩,
           reachedEnd := rest.isEmpty }).nextCharD) := by
  match fuel, hf with
  | fuel + 2, hf =>
    obtain ⟨c, run2, rfl⟩ : ∃ c run2, run = c :: run2 := by
      cases run with
      | nil => exact absurd rfl hne
      | cons a b => exact ⟨a, b, rfl⟩
    have hfc : isIdentifierFirst c = true := hfirst c rfl
    have hcur : l.currentChar = some c := by
      rw [currentChar_of_live hre]
      exact getElem_of_drop_cons (by simpa using hd)
    have hew := eatWhitespace_nospace fuel hcur (identFirst_not_space hfc)
    have hid := lexIdentifier_run (fuel + 1) l (c :: run2) rest hwf hre hd
      hrun hrest hne (by simp at hf ⊢; omega)
    have hq : ¬ (c = '"' ∨ c = Char.ofNat 39) := by
      rintro (rfl | rfl) <;> exact absurd hfc (by decide)
    simp only [tokenize, hew, hcur]
    rw [if_neg (identFirst_ne hfc EOF (by decide)),
        if_neg (identFirst_ne hfc '{' (by decide)),
        if_neg (identFirst_ne hfc '}' (by decide)),
        if_neg (identFirst_ne hfc '[' (by decide)),
        if_neg (identFirst_ne hfc ']' (by decide)),
        if_neg (identFirst_ne hfc ',' (by decide)),
        if_neg (identFirst_ne hfc '.' (by decide)),
        if_neg (identFirst_ne hfc '(' (by decide)),
        if_neg (identFirst_ne hfc ')' (by decide)),
        if_neg (identFirst_ne hfc ';' (by decide)),
        if_neg (identFirst_ne hfc '!' (by decide)),
        if_neg (identFirst_ne hfc '$' (by decide)),
        if_neg (identFirst_ne hfc ':' (by decide)),
        if_neg (identFirst_ne hfc '~' (by decide)),
        if_neg (identFirst_ne hfc '+' (by decide)),
        if_neg (identFirst_ne hfc '-' (by decide)),
        if_neg (identFirst_ne hfc '&' (by decide)),
        if_neg (identFirst_ne hfc '|' (by decide)),
        if_neg (identFirst_ne hfc '^' (by decide)),
        if_neg (identFirst_ne hfc '=' (by decide)),
        if_neg (identFirst_ne hfc '<' (by decide)),
        if_neg (identFirst_ne hfc '>' (by decide)),
        if_neg (identFirst_ne hfc '*' (by decide)),
        if_neg (identFirst_ne hfc '/' (by decide)),
        if_neg (identFirst_ne hfc '%' (by decide)),
        if_neg (identFirst_ne hfc '#' (by decide)),
        if_neg hq,
        if_pos hfc]
    rw [hid]
    simp [emitToken]

/-! ### Dispatch helpers: Tokenize at a concrete special character -/

theorem tokenize_at_hash (fuel : Nat) (l : Lexer)
    (hcur : l.currentChar = some '#')
    (hew : eatWhitespace (fuel + 1) l = Except.ok l) :
    tokenize (fuel + 2) l =
      (match eatCurrentLine (fuel + 1) l with
       | .error e => .error e
       | .ok l2 => tokenize (fuel + 1) l2) := by
  simp only [tokenize, hew, hcur]
  rfl

theorem tokenize_at_slash (fuel : Nat) (l : Lexer) (lp : Lexer)
    (hcur : l.currentChar = some '/')
    (hew : eatWhitespace (fuel + 1) l = Except.ok l)
    (hpeek : l.peek = Except.ok ('/', lp)) :
    tokenize (fuel + 2) l =
      (match eatCurrentLine (fuel + 1) lp with
       | .error e => .error e
       | .ok l2 => tokenize (fuel + 1) l2) := by
  simp only [tokenize, hew, hcur, hpeek]
  rfl

theorem tokenize_at_dquote (fuel : Nat) (l : Lexer)
    (hcur : l.currentChar = some '"')
    (hew : eatWhitespace (fuel + 1) l = Except.ok l) :
    tokenize (fuel + 2) l =
      (match eatUntil (fuel + 1) l.nextCharD '"' with
       | .error e => .error e
       | .ok (sv, l2) => .ok (emitToken l2 ⟨.STRING, sv⟩)) := by
  simp only [tokenize, hew, hcur]
  rfl

theorem tokenize_at_squote (fuel : Nat) (l : Lexer)
    (hcur : l.currentChar = some (Char.ofNat 39))
    (hew : eatWhitespace (fuel + 1) l = Except.ok l) :
    tokenize (fuel + 2) l =
      (match eatUntil (fuel + 1) l.nextCharD (Char.ofNat 39) with
       | .error e => .error e
       | .ok (sv, l2) => .ok (emitToken l2 ⟨.STRING, sv⟩)) := by
  simp only [tokenize, hew, hcur]
  rfl

theorem tokenize_at_eof (fuel : Nat) (l : Lexer)
    (hcur : l.currentChar = some EOF)
    (hew : eatWhitespace (fuel + 1) l = Except.ok l) :
    tokenize (fuel + 2) l =
      .ok (emitToken l ⟨.EOF, "(EOF)".toList⟩) := by
  simp only [tokenize, hew, hcur]
  rfl

/-! ### Comment elision -/

theorem drop_add_of_drop (s : List Char) (n m : Nat) :
    s.drop (n + m) = (s.drop n).drop m := by
  rw [List.drop_drop]

/-- Tokenize at a `#` comment whose line ends in a newline with more input
after it: the whole comment line is consumed, no token is emitted, and
tokenization restarts just past the newline. -/
theorem tokenize_hash_comment (fuel : Nat) (l : Lexer) (c rest2 : List Char)
    (hwf : l.sourceLength = l.source.length)
    (hre : l.reachedEnd = false)
    (hd : l.source.drop l.index = '#' :: (c ++ '\n' :: rest2))
    (hnc : '\n' ∉ c)
    (hrest : rest2 ≠ []) :
    tokenize (fuel + c.length + 4) l =
      tokenize (fuel + c.length + 3)
        { l with index := l.index + c.length + 2,
                 position := (posFold l.position ('#' :: c)).nextLine } := by
  have hcur : l.currentChar = some '#' := by
    rw [currentChar_of_live hre]
    exact getElem_of_drop_cons hd
  have hew := eatWhitespace_nospace (fuel + c.length + 2) hcur (by decide)
  have hlen := length_of_drop_cons hd
  have hdrun : l.source.drop l.index = ('#' :: c) ++ '\n' :: rest2 := by
    simpa using hd
  have heu := eatUntil_found (u := '\n') ('#' :: c) (fuel + c.length + 3) l
    rest2 hwf hre hdrun
    (by intro hm
        rcases List.mem_cons.mp hm with h1 | h1
        · exact absurd h1.symm (by decide)
        · exact hnc h1)
    (by simp; omega)
  have hdrop2 : l.source.drop (l.index + (c.length + 1)) = '\n' :: rest2 := by
    rw [drop_add_of_drop, hdrun]
    have hlc : ('#' :: c).length = c.length + 1 := by simp
    rw [← hlc, List.drop_left]
  have hnx := nextChar_normal (l :=
      { l with index := l.index + ('#' :: c).length,
               position := posFold l.position ('#' :: c) })
    (c := '\n') (by simpa using hre)
    (by simp only [List.length_cons]
        simp at hlen
        rw [hwf]
        have hr0 : rest2.length ≠ 0 := fun h0 =>
          hrest (List.length_eq_zero.mp h0)
        simp
        omega)
    (by simp only [List.length_cons]
        simpa using getElem_of_drop_cons hdrop2)
  rw [if_pos rfl] at hnx
  rw [show fuel + c.length + 4 = (fuel + c.length + 2) + 2 from by omega,
      tokenize_at_hash _ _ hcur hew]
  rw [show fuel + c.length + 2 + 1 = fuel + c.length + 3 from by omega]
  simp only [eatCurrentLine, eatUntilAfter, heu, nextCharD_of_ok hnx]
  simp only [List.length_cons, LexerPosition.nextLine]
  rw [show l.index + (c.length + 1) + 1 = l.index + c.length + 2 from by omega]

/-- Tokenize at a `//` comment whose line ends in a newline with more input
after it. -/
theorem tokenize_slash_comment (fuel : Nat) (l : Lexer) (c rest2 : List Char)
    (hwf : l.sourceLength = l.source.length)
    (hre : l.reachedEnd = false)
    (hd : l.source.drop l.index = '/' :: '/' :: (c ++ '\n' :: rest2))
    (hnc : '\n' ∉ c)
    (hrest : rest2 ≠ []) :
    tokenize (fuel + c.length + 5) l =
      tokenize (fuel + c.length + 4)
        { l with index := l.index + c.length + 3,
                 position := (posFold l.position ('/' :: '/' :: c)).nextLine } := by
  have hcur : l.currentChar = some '/' := by
    rw [currentChar_of_live hre]
    exact getElem_of_drop_cons hd
  have hew := eatWhitespace_nospace (fuel + c.length + 3) hcur (by decide)
  have hlen := length_of_drop_cons hd
  have hdrop1 : l.source.drop (l.index + 1) = '/' :: (c ++ '\n' :: rest2) :=
    drop_succ_of_drop_cons hd
  have hnov : ¬ l.willOverflow = true := by
    simp only [Lexer.willOverflow]
    simp at hlen
    simp
    rw [hwf]
    omega
  have hpeek : l.peek = .ok ('/', l) := by
    unfold Lexer.peek Lexer.invalidOverflow
    simp [hnov, getElem_of_drop_cons hdrop1]
  have hdrun : l.source.drop l.index =
      ('/' :: '/' :: c) ++ '\n' :: rest2 := by
    simpa using hd
  have heu := eatUntil_found (u := '\n') ('/' :: '/' :: c)
    (fuel + c.length + 4) l rest2 hwf hre hdrun
    (by intro hm
        rcases List.mem_cons.mp hm with h1 | h1
        · exact absurd h1.symm (by decide)
        rcases List.mem_cons.mp h1 with h2 | h2
        · exact absurd h2.symm (by decide)
        · exact hnc h2)
    (by simp; omega)
  have hdrop3 : l.source.drop (l.index + (c.length + 2)) = '\n' :: rest2 := by
    rw [drop_add_of_drop, hdrun]
    have hlc : ('/' :: '/' :: c).length = c.length + 2 := by simp
    rw [← hlc, List.drop_left]
  have hnx := nextChar_normal (l :=
      { l with index := l.index + ('/' :: '/' :: c).length,
               position := posFold l.position ('/' :: '/' :: c) })
    (c := '\n') (by simpa using hre)
    (by simp only [List.length_cons]
        simp at hlen
        rw [hwf]
        have hr0 : rest2.length ≠ 0 := fun h0 =>
          hrest (List.length_eq_zero.mp h0)
        simp
        omega)
    (by simp only [List.length_cons]
        simpa using getElem_of_drop_cons hdrop3)
  rw [if_pos rfl] at hnx
  rw [show fuel + c.length + 5 = (fuel + c.length + 3) + 2 from by omega,
      tokenize_at_slash _ _ _ hcur hew hpeek]
  rw [show fuel + c.length + 3 + 1 = fuel + c.length + 4 from by omega]
  simp only [eatCurrentLine, eatUntilAfter, heu, nextCharD_of_ok hnx]
  simp only [List.length_cons, LexerPosition.nextLine]
  rw [show l.index + (c.length + 2) + 1 = l.index + c.length + 3 from by omega]

/-! ### Every successful Tokenize appends exactly the returned token -/

theorem tokenize_tokens :
    ∀ (fuel : Nat) (l : Lexer) (tok : Token) (l1 : Lexer),
      tokenize fuel l = .ok (tok, l1) → l1.tokens = l.tokens ++ [tok] := by
  intro fuel
  induction fuel with
  | zero => intro l tok l1 h; simp [tokenize] at h
  | succ fuel ih =>
    intro l tok l1 h
    unfold tokenize at h
    rcases hew : eatWhitespace fuel l with e | lw <;> simp only [hew] at h
    · exact Except.noConfusion h
    have hewt := eatWhitespace_tokens fuel l lw hew
    rcases hcc : lw.currentChar with _ | char <;> simp only [hcc] at h
    · exact Except.noConfusion h
    by_cases hx0 : char = EOF
    · rw [if_pos hx0] at h
      simp only [emitToken, Except.ok.injEq, Prod.mk.injEq] at h
      obtain ⟨rfl, rfl⟩ := h
      simp [nextCharD_tokens, hewt]
    rw [if_neg hx0] at h
    by_cases hx1 : char = '{'
    · rw [if_pos hx1] at h
      simp only [emitToken, Except.ok.injEq, Prod.mk.injEq] at h
      obtain ⟨rfl, rfl⟩ := h
      simp [nextCharD_tokens, hewt]
    rw [if_neg hx1] at h
    by_cases hx2 : char = '}'
    · rw [if_pos hx2] at h
      simp only [emitToken, Except.ok.injEq, Prod.mk.injEq] at h
      obtain ⟨rfl, rfl⟩ := h
      simp [nextCharD_tokens, hewt]
    rw [if_neg hx2] at h
    by_cases hx3 : char = '['
    · rw [if_pos hx3] at h
      simp only [emitToken, Except.ok.injEq, Prod.mk.injEq] at h
      obtain ⟨rfl, rfl⟩ := h
      simp [nextCharD_tokens, hewt]
    rw [if_neg hx3] at h
    by_cases hx4 : char = ']'
    · rw [if_pos hx4] at h
      simp only [emitToken, Except.ok.injEq, Prod.mk.injEq] at h
      obtain ⟨rfl, rfl⟩ := h
      simp [nextCharD_tokens, hewt]
    rw [if_neg hx4] at h
    by_cases hx5 : char = ','
    · rw [if_pos hx5] at h
      simp only [emitToken, Except.ok.injEq, Prod.mk.injEq] at h
      obtain ⟨rfl, rfl⟩ := h
      simp [nextCharD_tokens, hewt]
    rw [if_neg hx5] at h
    by_cases hx6 : char = '.'
    · rw [if_pos hx6] at h
      simp only [emitToken, Except.ok.injEq, Prod.mk.injEq] at h
      obtain ⟨rfl, rfl⟩ := h
      simp [nextCharD_tokens, hewt]
    rw [if_neg hx6] at h
    by_cases hx7 : char = '('
    · rw [if_pos hx7] at h
      simp only [emitToken, Except.ok.injEq, Prod.mk.injEq] at h
      obtain ⟨rfl, rfl⟩ := h
      simp [nextCharD_tokens, hewt]
    rw [if_neg hx7] at h
    by_cases hx8 : char = ')'
    · rw [if_pos hx8] at h
      simp only [emitToken, Except.ok.injEq, Prod.mk.injEq] at h
      obtain ⟨rfl, rfl⟩ := h
      simp [nextCharD_tokens, hewt]
    rw [if_neg hx8] at h
    by_cases hx9 : char = ';'
    · rw [if_pos hx9] at h
      simp only [emitToken, Except.ok.injEq, Prod.mk.injEq] at h
      obtain ⟨rfl, rfl⟩ := h
      simp [nextCharD_tokens, hewt]
    rw [if_neg hx9] at h
    by_cases hx10 : char = '!'
    · rw [if_pos hx10] at h
      simp only [emitToken, Except.ok.injEq, Prod.mk.injEq] at h
      obtain ⟨rfl, rfl⟩ := h
      simp [nextCharD_tokens, hewt]
    rw [if_neg hx10] at h
    by_cases hx11 : char = '$'
    · rw [if_pos hx11] at h
      simp only [emitToken, Except.ok.injEq, Prod.mk.injEq] at h
      obtain ⟨rfl, rfl⟩ := h
      simp [nextCharD_tokens, hewt]
    rw [if_neg hx11] at h
    by_cases hx12 : char = ':'
    · rw [if_pos hx12] at h
      simp only [emitToken, Except.ok.injEq, Prod.mk.injEq] at h
      obtain ⟨rfl, rfl⟩ := h
      simp [nextCharD_tokens, hewt]
    rw [if_neg hx12] at h
    by_cases hx13 : char = '~'
    · rw [if_pos hx13] at h
      simp only [emitToken, Except.ok.injEq, Prod.mk.injEq] at h
      obtain ⟨rfl, rfl⟩ := h
      simp [nextCharD_tokens, hewt]
    rw [if_neg hx13] at h
    by_cases hx14 : char = '+'
    · rw [if_pos hx14] at h
      simp only [emitToken, Except.ok.injEq, Prod.mk.injEq] at h
      obtain ⟨rfl, rfl⟩ := h
      simp [nextCharD_tokens, hewt]
    rw [if_neg hx14] at h
    by_cases hx15 : char = '-'
    · rw [if_pos hx15] at h
      simp only [emitToken, Except.ok.injEq, Prod.mk.injEq] at h
      obtain ⟨rfl, rfl⟩ := h
      simp [nextCharD_tokens, hewt]
    rw [if_neg hx15] at h
    by_cases hx16 : char = '&'
    · rw [if_pos hx16] at h
      simp only [emitToken, Except.ok.injEq, Prod.mk.injEq] at h
      obtain ⟨rfl, rfl⟩ := h
      simp [nextCharD_tokens, hewt]
    rw [if_neg hx16] at h
    by_cases hx17 : char = '|'
    · rw [if_pos hx17] at h
      simp only [emitToken, Except.ok.injEq, Prod.mk.injEq] at h
      obtain ⟨rfl, rfl⟩ := h
      simp [nextCharD_tokens, hewt]
    rw [if_neg hx17] at h
    by_cases hx18 : char = '^'
    · rw [if_pos hx18] at h
      simp only [emitToken, Except.ok.injEq, Prod.mk.injEq] at h
      obtain ⟨rfl, rfl⟩ := h
      simp [nextCharD_tokens, hewt]
    rw [if_neg hx18] at h
    by_cases hx19 : char = '='
    · rw [if_pos hx19] at h
      simp only [emitToken, Except.ok.injEq, Prod.mk.injEq] at h
      obtain ⟨rfl, rfl⟩ := h
      simp [nextCharD_tokens, hewt]
    rw [if_neg hx19] at h
    by_cases hx20 : char = '<'
    · rw [if_pos hx20] at h
      simp only [emitToken, Except.ok.injEq, Prod.mk.injEq] at h
      obtain ⟨rfl, rfl⟩ := h
      simp [nextCharD_tokens, hewt]
    rw [if_neg hx20] at h
    by_cases hx21 : char = '>'
    · rw [if_pos hx21] at h
      simp only [emitToken, Except.ok.injEq, Prod.mk.injEq] at h
      obtain ⟨rfl, rfl⟩ := h
      simp [nextCharD_tokens, hewt]
    rw [if_neg hx21] at h
    by_cases hx22 : char = '*'
    · rw [if_pos hx22] at h
      simp only [emitToken, Except.ok.injEq, Prod.mk.injEq] at h
      obtain ⟨rfl, rfl⟩ := h
      simp [nextCharD_tokens, hewt]
    rw [if_neg hx22] at h
    by_cases hx23 : char = '/'
    · rw [if_pos hx23] at h
      rcases hpk : lw.peek with e | pr <;> simp only [hpk] at h
      · exact Except.noConfusion h
      obtain ⟨pc, lp⟩ := pr
      have hpf := peek_fields hpk
      split at h
      · rcases hecl : eatCurrentLine fuel lp with e | lc <;>
          simp only [hecl] at h
        · exact Except.noConfusion h
        have hc1 := eatCurrentLine_tokens fuel lp lc hecl
        rw [ih _ _ _ h, hc1, hpf.2.1, hewt]
      · simp only [emitToken, Except.ok.injEq, Prod.mk.injEq] at h
        obtain ⟨rfl, rfl⟩ := h
        simp [nextCharD_tokens, hpf.2.1, hewt]
    rw [if_neg hx23] at h
    by_cases hx24 : char = '%'
    · rw [if_pos hx24] at h
      simp only [emitToken, Except.ok.injEq, Prod.mk.injEq] at h
      obtain ⟨rfl, rfl⟩ := h
      simp [nextCharD_tokens, hewt]
    rw [if_neg hx24] at h
    by_cases hx25 : char = '#'
    · rw [if_pos hx25] at h
      rcases hecl : eatCurrentLine fuel lw with e | lc <;>
        simp only [hecl] at h
      · exact Except.noConfusion h
      have hc1 := eatCurrentLine_tokens fuel lw lc hecl
      rw [ih _ _ _ h, hc1, hewt]
    rw [if_neg hx25] at h
    by_cases hx26 : char = '"' ∨ char = Char.ofNat 39
    · rw [if_pos hx26] at h
      rcases heu : eatUntil fuel lw.nextCharD char with e | pr <;>
        simp only [heu] at h
      · exact Except.noConfusion h
      obtain ⟨sv, lq⟩ := pr
      have hq1 := eatUntil_tokens fuel lw.nextCharD char sv lq heu
      simp only [emitToken, Except.ok.injEq, Prod.mk.injEq] at h
      obtain ⟨rfl, rfl⟩ := h
      simp [nextCharD_tokens, hq1, hewt]
    rw [if_neg hx26] at h
    by_cases hx27 : isIdentifierFirst char = true
    · rw [if_pos hx27] at h
      rcases hid : lw.lexIdentifier fuel with e | pr <;> simp only [hid] at h
      · exact Except.noConfusion h
      obtain ⟨tk, lid⟩ := pr
      have hq1 := lexIdentifier_tokens fuel lw tk lid hid
      simp only [emitToken, Except.ok.injEq, Prod.mk.injEq] at h
      obtain ⟨rfl, rfl⟩ := h
      simp [nextCharD_tokens, hq1, hewt]
    rw [if_neg hx27] at h
    exact Except.noConfusion h

/-! ### The token stream of a successful Lex run -/

theorem lexLoop_ends :
    ∀ (fuel tfuel : Nat) (l : Lexer) (ts : List Token),
      lexLoop fuel tfuel l = .ok ts →
      (∀ t ∈ l.tokens, ¬ t.type = TokenType.EOF) →
      ∃ ts2 t, ts = ts2 ++ [t] ∧ t.type = TokenType.EOF ∧
        ∀ u ∈ ts2, ¬ u.type = TokenType.EOF := by
  intro fuel
  induction fuel with
  | zero => intro tfuel l ts h hpre; simp [lexLoop] at h
  | succ fuel ih =>
    intro tfuel l ts h hpre
    unfold lexLoop at h
    rcases htk : tokenize tfuel l with e | pr <;> simp only [htk] at h
    · exact Except.noConfusion h
    obtain ⟨tok, l1⟩ := pr
    have hto := tokenize_tokens tfuel l tok l1 htk
    split at h
    next htt =>
      simp only [Except.ok.injEq] at h
      subst h
      exact ⟨l.tokens, tok, hto, htt, hpre⟩
    next htt =>
      refine ih tfuel l1 ts h ?_
      intro t ht
      rw [hto] at ht
      rcases List.mem_append.mp ht with h1 | h1
      · exact hpre t h1
      · simp at h1
        subst h1
        exact htt

/-! ### One more dispatch helper, used by several claims -/

theorem tokenize_at_bang (fuel : Nat) (l : Lexer)
    (hcur : l.currentChar = some '!')
    (hew : eatWhitespace (fuel + 1) l = Except.ok l) :
    tokenize (fuel + 2) l = .ok (emitToken l ⟨.BANG, ['!']⟩) := by
  simp only [tokenize, hew, hcur]
  rfl

/-! ### Claim theorems -/

/-- The 23 single-character inputs (out of the claimed 24) that do lex to a
single fixed-kind token followed by EOF; `/` is excluded because it panics. -/
def punctPairs : List (Char × TokenType) :=
  [('{', .LBRACE), ('}', .RBRACE), ('[', .LBRACKET), (']', .RBRACKET),
   ('(', .LPAREN), (')', .RPAREN), (',', .COMMA), ('.', .DOT),
   (';', .SEMICOLON), (':', .COLON), ('!', .BANG), ('$', .DOLLAR),
   ('~', .TILDE), ('+', .PLUS), ('-', .MINUS), ('&', .AMP), ('|', .PIPE),
   ('^', .CARET), ('=', .ASSIGN), ('<', .LANGLE), ('>', .RANGLE),
   ('*', .STAR), ('%', .PERC)]

/-- Claim C1: for 23 of the 24 single-character punctuation/operator inputs,
Lex indeed returns exactly the matching one-character token followed by the
EOF token; but for the input consisting of the single character `/`, Lex
does not return two tokens — Peek flips the end flag and then indexes
`Source[1]` out of range, so the whole lex operation panics. The claim is
the spec's intent and the code's unguarded index is the slip. -/
theorem C1_single_char_tokens :
    (punctPairs.all fun p =>
      match lexString [p.1] with
      | .ok ts => ts == [⟨p.2, [p.1]⟩, ⟨.EOF, "(EOF)".toList⟩]
      | .error _ => false) = true
    ∧ lexString ['/'] = .error "panic: index out of range" :=
  ⟨rfl, rfl⟩

/-- Claim C2: CurrentChar is claimed never to fail, including on an empty
source; but on the initial state of an empty source the end flag is still
false and the Go code indexes `Source[0]` out of range (modelled by `none`),
so CurrentChar panics and the whole lex of the empty source aborts. -/
theorem C2_currentChar_empty_source :
    (Lexer.new []).currentChar = none ∧
    (Lexer.new []).lex = .error "panic: index out of range" :=
  ⟨rfl, rfl⟩

/-- Claim C7 counterexample: producing the EOF token at end of input is not
free of side effects — each Tokenize call at the end appends another EOF
token to the accumulated token list, so the lexer state is not unchanged. -/
theorem C7_tokens_grow_at_eof :
    tokenize 8 (Lexer.new ['!']) =
      .ok (⟨.BANG, ['!']⟩,
        ⟨['!'], [⟨.BANG, ['!']⟩], ⟨0, 1⟩, 1, 1, true⟩) ∧
    tokenize 8 ⟨['!'], [⟨.BANG, ['!']⟩], ⟨0, 1⟩, 1, 1, true⟩ =
      .ok (⟨.EOF, "(EOF)".toList⟩,
        ⟨['!'], [⟨.BANG, ['!']⟩, ⟨.EOF, "(EOF)".toList⟩],
         ⟨0, 1⟩, 1, 1, true⟩) ∧
    ¬ ([⟨.BANG, ['!']⟩, ⟨.EOF, "(EOF)".toList⟩] : List Token) =
        [⟨.BANG, ['!']⟩] :=
  ⟨rfl, rfl, by decide⟩

/-- Claim C7 as amended: at end of input every Tokenize call returns the
same EOF token with the fixed lexeme and leaves the cursor (source, index,
position, end flag) unchanged, but appends one more EOF token to the
accumulated token list on every call. -/
theorem C7_eof_token_repeatable (fuel : Nat) (l : Lexer)
    (hre : l.reachedEnd = true) (hov : l.sourceLength ≤ l.index + 1) :
    tokenize (fuel + 2) l =
      .ok (⟨.EOF, "(EOF)".toList⟩,
        { l with tokens := l.tokens ++ [Token.mk .EOF "(EOF)".toList] }) := by
  have hcur := currentChar_of_reachedEnd hre
  have hew := eatWhitespace_nospace fuel hcur (by decide)
  rw [tokenize_at_eof fuel l hcur hew]
  simp only [emitToken]
  rw [nextCharD_of_error (nextChar_end_error (by simpa using hre)
    (by simpa using hov))]

theorem C7_witness :
    tokenize 8 ⟨['!'], [⟨.BANG, ['!']⟩], ⟨0, 1⟩, 1, 1, true⟩ =
      .ok (⟨.EOF, "(EOF)".toList⟩,
        { (⟨['!'], [⟨.BANG, ['!']⟩], ⟨0, 1⟩, 1, 1, true⟩ : Lexer) with
          tokens := [⟨.BANG, ['!']⟩] ++ [Token.mk .EOF "(EOF)".toList] }) :=
  C7_eof_token_repeatable 6 ⟨['!'], [⟨.BANG, ['!']⟩], ⟨0, 1⟩, 1, 1, true⟩
    rfl (by decide)

/-- Claim C9: the NextChar call that consumes the final byte of the source
performs the end flip before reading, so it returns the EOF sentinel instead
of that byte's value, and the position bookkeeping advances the column (one
non-newline step) regardless of what the final byte is — even when it is a
newline. -/
theorem C9_final_byte_read_as_sentinel (l : Lexer)
    (hre : l.reachedEnd = false) (hov : l.sourceLength ≤ l.index + 1) :
    l.nextChar = .ok (EOF,
      { l with
        index := l.index + 1,
        position := l.position.nextChar,
        reachedEnd := true }) :=
  nextChar_flip hre hov

theorem C9_witness :
    (Lexer.new ['\n']).nextChar = .ok (EOF,
      { Lexer.new ['\n'] with
        index := (Lexer.new ['\n']).index + 1,
        position := (Lexer.new ['\n']).position.nextChar,
        reachedEnd := true }) :=
  C9_final_byte_read_as_sentinel (Lexer.new ['\n']) rfl (by decide)

/-- Claim C10: a NUL byte in the source is indistinguishable from the EOF
sentinel: when the cursor sits on a `\x00` byte (end flag still false),
Tokenize takes the EOF branch and emits the EOF token — no unrecognized
character failure — and Lex therefore stops there, silently dropping
everything after the NUL, as the concrete run on "!\x00%" shows. -/
theorem C10_nul_byte_acts_as_eof (fuel : Nat) (l : Lexer)
    (hre : l.reachedEnd = false)
    (hq : l.source[l.index]? = some EOF) :
    (∃ l1, tokenize (fuel + 2) l = .ok (⟨.EOF, "(EOF)".toList⟩, l1) ∧
      l1.tokens = l.tokens ++ [Token.mk .EOF "(EOF)".toList]) ∧
    lexString ['!', EOF, '%'] =
      .ok [⟨.BANG, ['!']⟩, ⟨.EOF, "(EOF)".toList⟩] := by
  constructor
  · have hcur : l.currentChar = some EOF := by
      rw [currentChar_of_live hre]
      exact hq
    have hew := eatWhitespace_nospace fuel hcur (by decide)
    have ht := tokenize_at_eof fuel l hcur hew
    simp only [emitToken] at ht
    exact ⟨_, ht, by simp [nextCharD_tokens]⟩
  · rfl

theorem C10_witness :
    ∃ l1, tokenize 12 (Lexer.new [EOF, 'x']) =
      .ok (⟨.EOF, "(EOF)".toList⟩, l1) ∧
      l1.tokens = (Lexer.new [EOF, 'x']).tokens ++
        [Token.mk .EOF "(EOF)".toList] :=
  (C10_nul_byte_acts_as_eof 10 (Lexer.new [EOF, 'x']) rfl rfl).1

/-- Claim C4: whenever Lex returns normally, the returned token sequence
ends with exactly one EOF token and contains no tokens after it (all earlier
tokens have non-EOF kinds). -/
theorem C4_lex_trailing_eof (s : List Char) (ts : List Token)
    (h : lexString s = .ok ts) :
    ∃ ts2 t, ts = ts2 ++ [t] ∧ t.type = TokenType.EOF ∧
      ∀ u ∈ ts2, ¬ u.type = TokenType.EOF := by
  unfold lexString Lexer.lex at h
  exact lexLoop_ends _ _ _ _ h (by intro t ht; simp [Lexer.new] at ht)

theorem C4_witness :
    ∃ ts2 t,
      ([⟨.BANG, ['!']⟩, ⟨.EOF, "(EOF)".toList⟩] : List Token) =
        ts2 ++ [t] ∧ t.type = TokenType.EOF ∧
      ∀ u ∈ ts2, ¬ u.type = TokenType.EOF :=
  C4_lex_trailing_eof ['!'] [⟨.BANG, ['!']⟩, ⟨.EOF, "(EOF)".toList⟩] rfl

/-- Claim C3: whenever the cursor sits on an opening quote character and the
matching quote does not occur anywhere later in the source, Tokenize aborts
with the unhandled end-of-input failure (the Go code panics inside eatUntil)
instead of emitting a truncated STRING token, and Lex propagates that same
abort. -/
theorem C3_unterminated_string_aborts (fuel : Nat) (l : Lexer) (q : Char)
    (hwf : l.sourceLength = l.source.length)
    (hre : l.reachedEnd = false)
    (hq : l.source[l.index]? = some q)
    (hqc : q = '"' ∨ q = Char.ofNat 39)
    (hmem : q ∉ l.source.drop (l.index + 1))
    (hf : l.source.length + 2 ≤ fuel) :
    tokenize (fuel + 2) l =
      .error "Unhandled end of input looking for the next character" ∧
    ∀ lfuel, lexLoop (lfuel + 1) (fuel + 2) l =
      .error "Unhandled end of input looking for the next character" := by
  have hidx : l.index < l.source.length := by
    by_contra hge
    rw [List.getElem?_eq_none (by omega)] at hq
    exact Option.noConfusion hq
  have hqEOF : ¬ q = EOF := by
    rcases hqc with rfl | rfl <;> decide
  have hD1 : l.nextCharD.index = l.index + 1 ∧
      l.nextCharD.source = l.source ∧
      l.nextCharD.sourceLength = l.sourceLength ∧
      (l.nextCharD.reachedEnd = false →
        l.nextCharD.index < l.nextCharD.source.length) := by
    by_cases hov : l.sourceLength ≤ l.index + 1
    · rw [nextCharD_of_ok (nextChar_flip hre hov)]
      simp
    · rw [nextCharD_of_ok (nextChar_normal hre (by omega) hq)]
      by_cases hqn : q = '\n' <;> simp [hqn] <;> intro <;> omega
  obtain ⟨hDi, hDs, hDl, hDsafe⟩ := hD1
  have hnf := eatUntil_not_found hqEOF (fuel + 1) l.nextCharD
    (by rw [hDl, hDs, hwf])
    hDsafe
    (by rw [hDs, hDi]; exact hmem)
    (by unfold Lexer.fuelMeasure
        rw [hDl, hDi, hwf]
        split <;> omega)
  have hmain : tokenize (fuel + 2) l =
      .error "Unhandled end of input looking for the next character" := by
    rcases hqc with rfl | rfl
    · have hcur : l.currentChar = some '"' := by
        rw [currentChar_of_live hre]
        exact hq
      have hew := eatWhitespace_nospace fuel hcur (by decide)
      rw [tokenize_at_dquote fuel l hcur hew, hnf]
    · have hcur : l.currentChar = some (Char.ofNat 39) := by
        rw [currentChar_of_live hre]
        exact hq
      have hew := eatWhitespace_nospace fuel hcur (by decide)
      rw [tokenize_at_squote fuel l hcur hew, hnf]
  refine ⟨hmain, fun lfuel => ?_⟩
  unfold lexLoop
  rw [hmain]

theorem C3_witness :
    tokenize 6 (Lexer.new ['"', 'a']) =
      .error "Unhandled end of input looking for the next character" :=
  (C3_unterminated_string_aborts 4 (Lexer.new ['"', 'a']) '"' rfl rfl rfl
    (Or.inl rfl) (by decide) (by decide)).1

/-- Claim C8: at the start of a maximal identifier-shaped run (first
character identifier-first, subsequent characters identifier characters,
followed by a non-identifier character or end of input), Tokenize emits
exactly one token whose lexeme is the run preserved verbatim and whose kind
is the exact-match keyword-table lookup of that run (IDENT when absent), and
appends exactly that token to the token list. -/
theorem C8_identifier_keyword_token (fuel : Nat) (l : Lexer)
    (run rest : List Char)
    (hwf : l.sourceLength = l.source.length)
    (hre : l.reachedEnd = false)
    (hd : l.source.drop l.index = run ++ rest)
    (hfirst : ∀ x, run.head? = some x → isIdentifierFirst x = true)
    (hrun : ∀ x ∈ run, isIdentifier x = true)
    (hrest : ∀ y, rest.head? = some y → isIdentifier y = false)
    (hne : run ≠ [])
    (hf : run.length + 2 ≤ fuel) :
    ∃ l1, tokenize fuel l = .ok (⟨getKeywordKind run, run⟩, l1) ∧
      l1.tokens = l.tokens ++ [Token.mk (getKeywordKind run) run] := by
  refine ⟨_, tokenize_identifier fuel l run rest hwf hre hd hfirst hrun
    hrest hne hf, ?_⟩
  simp [nextCharD_tokens]

theorem C8_witness :
    ∃ l1, tokenize 9 (Lexer.new ("local!".toList)) =
      .ok (⟨getKeywordKind "local".toList, "local".toList⟩, l1) ∧
      l1.tokens = (Lexer.new ("local!".toList)).tokens ++
        [Token.mk (getKeywordKind "local".toList) "local".toList] :=
  C8_identifier_keyword_token 9 (Lexer.new ("local!".toList))
    "local".toList ['!'] rfl rfl rfl (by decide) (by decide) (by decide)
    (by decide) (by decide)

/-! ### Position tracking under consumption -/

theorem posFold_append (p : LexerPosition) (xs ys : List Char) :
    posFold p (xs ++ ys) = posFold (posFold p xs) ys := by
  unfold posFold
  rw [List.foldl_append]

theorem posFold_line (cs : List Char) :
    ∀ p : LexerPosition, (posFold p cs).line = p.line + cs.count '\n' := by
  induction cs with
  | nil => intro p; simp [posFold]
  | cons c cs ih =>
    intro p
    rw [posFold_cons]
    by_cases hc : c = '\n' <;>
      simp [hc, ih, LexerPosition.nextLine, LexerPosition.nextChar,
        List.count_cons] <;> omega

/-- While strictly inside the source, `i` discarded NextChar calls from a
fresh lexer consume exactly the first `i` bytes, folding the position update
over them, with the end flag still unset. -/
theorem consumeN_new_lt (s : List Char) :
    ∀ i, i < s.length →
      consumeN i (Lexer.new s) =
        { source := s, tokens := [], position := posFold ⟨0, 0⟩ (s.take i),
          index := i, sourceLength := s.length, reachedEnd := false } := by
  intro i
  induction i with
  | zero =>
    intro h
    simp [consumeN, Lexer.new, posFold]
  | succ i ih =>
    intro h
    have hi : i < s.length := by omega
    rw [consumeN, ih hi]
    have hg : s[i]? = some s[i] := List.getElem?_eq_getElem hi
    have hnx := nextChar_normal (l :=
        { source := s, tokens := [], position := posFold ⟨0, 0⟩ (s.take i),
          index := i, sourceLength := s.length, reachedEnd := false })
      (c := s[i]) rfl (by simpa using h) (by simpa using hg)
    rw [nextCharD_of_ok hnx]
    have htake : s.take (i + 1) = s.take i ++ [s[i]] := by
      rw [List.take_succ, hg]
      rfl
    rw [htake, posFold_append]
    by_cases hnl : s[i] = '\n' <;>
      simp [hnl, posFold, LexerPosition.nextLine, LexerPosition.nextChar]

/-- Consuming the whole source: the final byte is read as the sentinel
(after the end flip), so its position update is always one column step —
even when the final byte is a newline. -/
theorem consumeN_new_full (s : List Char) (h0 : 0 < s.length) :
    consumeN s.length (Lexer.new s) =
      { source := s, tokens := [],
        position := (posFold ⟨0, 0⟩ (s.take (s.length - 1))).nextChar,
        index := s.length, sourceLength := s.length, reachedEnd := true } := by
  obtain ⟨n, hn⟩ : ∃ n, s.length = n + 1 := ⟨s.length - 1, by omega⟩
  rw [hn, consumeN, consumeN_new_lt s n (by omega)]
  rw [nextCharD_of_ok (nextChar_flip rfl (by simp; omega))]
  simp [hn]

/-- When the cursor sits at the start of a maximal identifier run that is
followed by at least one further byte, Tokenize moves the cursor past the
run (index advances by the run length, the end flag stays unset) but bumps
the column by the run length PLUS ONE: lexIdentifier backs the index up by
one after its scan, and emitToken's discarded NextChar then re-reads the
final identifier byte, counting it a second time. -/
theorem tokenize_identifier_advance (fuel : Nat) (l : Lexer)
    (run : List Char) (y : Char) (rest2 : List Char)
    (hwf : l.sourceLength = l.source.length)
    (hre : l.reachedEnd = false)
    (hd : l.source.drop l.index = run ++ y :: rest2)
    (hfirst : ∀ x, run.head? = some x → isIdentifierFirst x = true)
    (hrun : ∀ x ∈ run, isIdentifier x = true)
    (hy : isIdentifier y = false)
    (hne : run ≠ [])
    (hf : run.length + 2 ≤ fuel) :
    tokenize fuel l =
      .ok (⟨getKeywordKind run, run⟩,
        { l with
          tokens := l.tokens ++ [Token.mk (getKeywordKind run) run],
          index := l.index + run.length,
          position := ⟨l.position.line,
                       l.position.lineChar + run.length + 1⟩,
          reachedEnd := false }) := by
  have hti := tokenize_identifier fuel l run (y :: rest2) hwf hre hd hfirst
    hrun
    (by intro z hz
        simp at hz
        rw [← hz]
        exact hy)
    hne hf
  obtain ⟨run0, z, hrz⟩ : ∃ run0 z, run = run0 ++ [z] := by
    rcases List.eq_nil_or_concat run with h | ⟨a, b, h⟩
    · exact absurd h hne
    · exact ⟨a, b, by simpa [List.concat_eq_append] using h⟩
  subst hrz
  have hz : isIdentifier z = true := hrun z (by simp)
  have hd2 : l.source.drop l.index = run0 ++ (z :: y :: rest2) := by
    simpa using hd
  have hzdrop : l.source.drop (l.index + run0.length) = z :: y :: rest2 := by
    rw [drop_add_of_drop, hd2]
    exact List.drop_left run0 (z :: y :: rest2)
  have hlen := length_of_drop_cons hzdrop
  have hidx : l.index + (run0 ++ [z]).length - 1 = l.index + run0.length := by
    simp
  have hgz : l.source[l.index + (run0 ++ [z]).length - 1]? = some z := by
    rw [hidx]
    exact getElem_of_drop_cons hzdrop
  rw [hti]
  have hnx := nextChar_normal
    (l := { l with
            tokens := l.tokens ++
              [Token.mk (getKeywordKind (run0 ++ [z])) (run0 ++ [z])],
            index := l.index + (run0 ++ [z]).length - 1,
            position := ⟨l.position.line,
                         l.position.lineChar + (run0 ++ [z]).length⟩,
            reachedEnd := (y :: rest2).isEmpty })
    (c := z) (by simp)
    (by simp only []
        show l.index + (run0 ++ [z]).length - 1 + 1 < l.sourceLength
        rw [hwf]
        simp at hlen ⊢
        omega)
    (by simpa using hgz)
  rw [if_neg (ident_ne_newline hz)] at hnx
  rw [nextCharD_of_ok hnx]
  simp only [LexerPosition.nextChar]
  rw [show l.index + (run0 ++ [z]).length - 1 + 1 =
      l.index + (run0 ++ [z]).length from by simp; omega]
  rfl

/-- Claim C6 counterexample: (i) consuming the whole one-byte source `"\n"`
leaves `line` at 0, not 1, because the end flip makes the final byte be read
as the EOF sentinel, so its newline is never counted (the column is bumped
instead); (ii) during a real lex, Tokenize on the source `"ab "` stops with
the cursor at index 2 — two bytes consumed, neither a newline — yet
with column 3, because the final identifier byte `b` is read twice
(lexIdentifier's index decrement followed by emitToken's discarded
NextChar). Both parts refute "column is incremented exactly once per
consumed non-newline byte / line once per consumed newline byte". -/
theorem C6_position_counterexample :
    ¬ ((consumeN 1 (Lexer.new ['\n'])).position.line = 1) ∧
    tokenize 10 (Lexer.new ['a', 'b', ' ']) =
      .ok (Token.mk TokenType.IDENT ['a', 'b'],
        { source := ['a', 'b', ' '],
          tokens := [Token.mk TokenType.IDENT ['a', 'b']],
          position := ⟨0, 3⟩,
          index := 2,
          sourceLength := 3,
          reachedEnd := false }) :=
  ⟨by decide, rfl⟩

/-- Claim C6 as amended: every position update happens inside NextChar, one
step per read — reading the byte `\n` increments `line` and resets the
column to 0, every other read increments the column — but reads and
consumed source bytes do not correspond one-to-one, in two ways. (i) After
`k` discarded reads of a fresh lexer the position is exactly the fold of
that per-byte rule over the first `k` bytes, EXCEPT that the read of the
final source byte is always a plain column bump (the end flip makes
NextChar return the EOF sentinel in its place); (ii) hence `line` equals
the number of `\n` bytes among the first `min k (length - 1)` bytes. (iii)
During a lex operation, the final byte of every identifier token that is
followed by a further (non-identifier) byte is read twice: Tokenize moves
the cursor past the `n`-byte run but bumps the column by `n + 1`. -/
theorem C6_position_tracking :
    (∀ (s : List Char) (k : Nat), k ≤ s.length →
      (consumeN k (Lexer.new s)).position =
        if k = s.length ∧ 0 < s.length then
          (posFold ⟨0, 0⟩ (s.take (s.length - 1))).nextChar
        else posFold ⟨0, 0⟩ (s.take k)) ∧
    (∀ (s : List Char) (k : Nat), k ≤ s.length →
      (consumeN k (Lexer.new s)).position.line =
        ((s.take (min k (s.length - 1))).count '\n')) ∧
    (∀ (fuel : Nat) (l : Lexer) (run : List Char) (y : Char)
        (rest2 : List Char),
      l.sourceLength = l.source.length → l.reachedEnd = false →
      l.source.drop l.index = run ++ y :: rest2 →
      (∀ x, run.head? = some x → isIdentifierFirst x = true) →
      (∀ x ∈ run, isIdentifier x = true) →
      isIdentifier y = false → run ≠ [] → run.length + 2 ≤ fuel →
      tokenize fuel l = .ok (⟨getKeywordKind run, run⟩,
        { l with
          tokens := l.tokens ++ [Token.mk (getKeywordKind run) run],
          index := l.index + run.length,
          position := ⟨l.position.line,
                       l.position.lineChar + run.length + 1⟩,
          reachedEnd := false })) := by
  refine ⟨?_, ?_, ?_⟩
  · intro s k hk
    rcases Nat.lt_or_ge k s.length with hlt | hge
    · rw [consumeN_new_lt s k hlt, if_neg (by omega)]
    · have hk2 : k = s.length := by omega
      subst hk2
      by_cases h0 : s.length = 0
      · have hs : s = [] := List.length_eq_zero.mp h0
        subst hs
        rw [if_neg (by simp)]
        simp [consumeN, Lexer.new, posFold]
      · rw [consumeN_new_full s (by omega), if_pos ⟨rfl, by omega⟩]
  · intro s k hk
    rcases Nat.lt_or_ge k s.length with hlt | hge
    · rw [consumeN_new_lt s k hlt]
      have hmin : min k (s.length - 1) = k := by omega
      rw [hmin]
      simp [posFold_line]
    · have hk2 : k = s.length := by omega
      subst hk2
      by_cases h0 : s.length = 0
      · have hs : s = [] := List.length_eq_zero.mp h0
        subst hs
        simp [consumeN, Lexer.new, posFold]
      · rw [consumeN_new_full s (by omega)]
        have hmin : min s.length (s.length - 1) = s.length - 1 := by omega
        rw [hmin]
        simp [LexerPosition.nextChar, posFold_line]
  · intro fuel l run y rest2 hwf hre hd hfirst hrun hy hne hf
    exact tokenize_identifier_advance fuel l run y rest2 hwf hre hd hfirst
      hrun hy hne hf

theorem C6_position_witness :
    (3 ≤ (['a', '\n', 'b'] : List Char).length ∧
      (consumeN 3 (Lexer.new ['a', '\n', 'b'])).position =
        if 3 = (['a', '\n', 'b'] : List Char).length ∧
            0 < (['a', '\n', 'b'] : List Char).length then
          (posFold ⟨0, 0⟩ ((['a', '\n', 'b'] : List Char).take
            ((['a', '\n', 'b'] : List Char).length - 1))).nextChar
        else posFold ⟨0, 0⟩ ((['a', '\n', 'b'] : List Char).take 3)) ∧
    tokenize 10 (Lexer.new ['a', 'b', ' ']) =
      .ok (⟨getKeywordKind ['a', 'b'], ['a', 'b']⟩,
        { Lexer.new ['a', 'b', ' '] with
          tokens := (Lexer.new ['a', 'b', ' ']).tokens ++
            [Token.mk (getKeywordKind ['a', 'b']) ['a', 'b']],
          index := (Lexer.new ['a', 'b', ' ']).index +
            (['a', 'b'] : List Char).length,
          position := ⟨(Lexer.new ['a', 'b', ' ']).position.line,
                       (Lexer.new ['a', 'b', ' ']).position.lineChar +
                         (['a', 'b'] : List Char).length + 1⟩,
          reachedEnd := false }) :=
  ⟨⟨by decide, C6_position_tracking.1 ['a', '\n', 'b'] 3 (by decide)⟩,
   C6_position_tracking.2.2 10 (Lexer.new ['a', 'b', ' ']) ['a', 'b'] ' ' []
     rfl rfl rfl (by decide) (by decide) (by decide) (by decide)
     (by decide)⟩

/-! ### Single steps of the Lex loop -/

theorem lexLoop_step_ne (fuel tfuel : Nat) {l l1 : Lexer} {tok : Token}
    (h : tokenize tfuel l = .ok (tok, l1))
    (hne : ¬ tok.type = TokenType.EOF) :
    lexLoop (fuel + 1) tfuel l = lexLoop fuel tfuel l1 := by
  conv_lhs => rw [lexLoop]
  rw [h]
  simp [hne]

theorem lexLoop_step_eof (fuel tfuel : Nat) {l l1 : Lexer} {tok : Token}
    (h : tokenize tfuel l = .ok (tok, l1))
    (heq : tok.type = TokenType.EOF) :
    lexLoop (fuel + 1) tfuel l = .ok l1.tokens := by
  conv_lhs => rw [lexLoop]
  rw [h]
  simp [heq]

/-! ### The comment-elision families for claim C5 -/

theorem lexString_hash_bang (c : List Char) (hnc : '\n' ∉ c) :
    lexString ('!' :: '#' :: (c ++ '\n' :: ['!'])) =
      .ok [⟨.BANG, ['!']⟩, ⟨.BANG, ['!']⟩, ⟨.EOF, "(EOF)".toList⟩] := by
  have hA : ∀ f, tokenize (f + 2)
      (Lexer.new ('!' :: '#' :: (c ++ '\n' :: ['!']))) =
      .ok (⟨.BANG, ['!']⟩,
        ⟨'!' :: '#' :: (c ++ '\n' :: ['!']), [⟨.BANG, ['!']⟩], ⟨0, 1⟩, 1,
         ('!' :: '#' :: (c ++ '\n' :: ['!'])).length, false⟩) := by
    intro f
    have hcur0 : (Lexer.new ('!' :: '#' :: (c ++ '\n' :: ['!']))).currentChar =
        some '!' := rfl
    have hew0 := eatWhitespace_nospace f hcur0 (by decide)
    rw [tokenize_at_bang f _ hcur0 hew0]
    have hnx0 := nextChar_normal
      (l := { Lexer.new ('!' :: '#' :: (c ++ '\n' :: ['!'])) with
              tokens := (Lexer.new ('!' :: '#' :: (c ++ '\n' :: ['!']))).tokens
                ++ [(⟨.BANG, ['!']⟩ : Token)] })
      (c := '!') rfl (by simp [Lexer.new]) rfl
    rw [if_neg (show ¬ ('!' : Char) = '\n' from by decide)] at hnx0
    simp only [emitToken]
    rw [nextCharD_of_ok hnx0]
    simp [Lexer.new, LexerPosition.nextChar]
  have hB := fun f => tokenize_hash_comment f
    (⟨'!' :: '#' :: (c ++ '\n' :: ['!']), [⟨.BANG, ['!']⟩], ⟨0, 1⟩, 1,
      ('!' :: '#' :: (c ++ '\n' :: ['!'])).length, false⟩ : Lexer)
    c ['!'] (by simp) rfl rfl hnc (by simp)
  have hdropC : ('!' :: '#' :: (c ++ '\n' :: ['!'])).drop (1 + c.length + 2) =
      ['!'] := by
    have h1 : ('!' :: '#' :: (c ++ '\n' :: ['!'])).drop (1 + c.length + 2) =
        (c ++ '\n' :: ['!']).drop (c.length + 1) := by
      rw [show 1 + c.length + 2 = (c.length + 1) + 2 from by omega]
      rfl
    rw [h1]
    rw [show c ++ '\n' :: ['!'] = (c ++ ['\n']) ++ ['!'] from by simp]
    rw [show c.length + 1 = (c ++ ['\n']).length from by simp]
    exact List.drop_left _ _
  have hC : ∀ f, tokenize (f + 2)
      (⟨'!' :: '#' :: (c ++ '\n' :: ['!']), [⟨.BANG, ['!']⟩],
        (posFold ⟨0, 1⟩ ('#' :: c)).nextLine, 1 + c.length + 2,
        ('!' :: '#' :: (c ++ '\n' :: ['!'])).length, false⟩ : Lexer) =
      .ok (⟨.BANG, ['!']⟩,
        ⟨'!' :: '#' :: (c ++ '\n' :: ['!']), [⟨.BANG, ['!']⟩, ⟨.BANG, ['!']⟩],
         ((posFold ⟨0, 1⟩ ('#' :: c)).nextLine).nextChar, 1 + c.length + 2 + 1,
         ('!' :: '#' :: (c ++ '\n' :: ['!'])).length, true⟩) := by
    intro f
    have hcur2 : (⟨'!' :: '#' :: (c ++ '\n' :: ['!']), [⟨.BANG, ['!']⟩],
        (posFold ⟨0, 1⟩ ('#' :: c)).nextLine, 1 + c.length + 2,
        ('!' :: '#' :: (c ++ '\n' :: ['!'])).length, false⟩ : Lexer).currentChar
        = some '!' := by
      have hcc : (⟨'!' :: '#' :: (c ++ '\n' :: ['!']), [⟨.BANG, ['!']⟩],
          (posFold ⟨0, 1⟩ ('#' :: c)).nextLine, 1 + c.length + 2,
          ('!' :: '#' :: (c ++ '\n' :: ['!'])).length, false⟩ : Lexer).currentChar
          = ('!' :: '#' :: (c ++ '\n' :: ['!']))[1 + c.length + 2]? := rfl
      rw [hcc]
      exact getElem_of_drop_cons hdropC
    have hew2 := eatWhitespace_nospace f hcur2 (by decide)
    rw [tokenize_at_bang f _ hcur2 hew2]
    simp only [emitToken]
    have hnx2 := nextChar_flip
      (l := { (⟨'!' :: '#' :: (c ++ '\n' :: ['!']), [⟨.BANG, ['!']⟩],
          (posFold ⟨0, 1⟩ ('#' :: c)).nextLine, 1 + c.length + 2,
          ('!' :: '#' :: (c ++ '\n' :: ['!'])).length, false⟩ : Lexer) with
          tokens := [(⟨.BANG, ['!']⟩ : Token)] ++ [(⟨.BANG, ['!']⟩ : Token)] })
      rfl (by simp; omega)
    rw [nextCharD_of_ok hnx2]
    rfl
  have hD : ∀ f, tokenize (f + 2)
      (⟨'!' :: '#' :: (c ++ '\n' :: ['!']), [⟨.BANG, ['!']⟩, ⟨.BANG, ['!']⟩],
        ((posFold ⟨0, 1⟩ ('#' :: c)).nextLine).nextChar, 1 + c.length + 2 + 1,
        ('!' :: '#' :: (c ++ '\n' :: ['!'])).length, true⟩ : Lexer) =
      .ok (⟨.EOF, "(EOF)".toList⟩,
        ⟨'!' :: '#' :: (c ++ '\n' :: ['!']),
         [⟨.BANG, ['!']⟩, ⟨.BANG, ['!']⟩, ⟨.EOF, "(EOF)".toList⟩],
         ((posFold ⟨0, 1⟩ ('#' :: c)).nextLine).nextChar, 1 + c.length + 2 + 1,
         ('!' :: '#' :: (c ++ '\n' :: ['!'])).length, true⟩) := by
    intro f
    have hcur3 := currentChar_of_reachedEnd
      (l := ⟨'!' :: '#' :: (c ++ '\n' :: ['!']),
        [⟨.BANG, ['!']⟩, ⟨.BANG, ['!']⟩],
        ((posFold ⟨0, 1⟩ ('#' :: c)).nextLine).nextChar, 1 + c.length + 2 + 1,
        ('!' :: '#' :: (c ++ '\n' :: ['!'])).length, true⟩) rfl
    have hew3 := eatWhitespace_nospace f hcur3 (by decide)
    rw [tokenize_at_eof f _ hcur3 hew3]
    simp only [emitToken]
    rw [nextCharD_of_error (nextChar_end_error rfl (by first | (simp; omega) | simp))]
    rfl
  have hloop : ∀ F f2, lexLoop (F + 1 + 1 + 1 + 1) (f2 + c.length + 4)
      (Lexer.new ('!' :: '#' :: (c ++ '\n' :: ['!']))) =
      .ok [⟨.BANG, ['!']⟩, ⟨.BANG, ['!']⟩, ⟨.EOF, "(EOF)".toList⟩] := by
    intro F f2
    have hA2 := hA (f2 + c.length + 2)
    rw [show f2 + c.length + 2 + 2 = f2 + c.length + 4 from rfl] at hA2
    have hB2 := hB f2
    have hC2 := hC (f2 + c.length + 1)
    rw [show f2 + c.length + 1 + 2 = f2 + c.length + 3 from rfl] at hC2
    have hBC := hB2.trans hC2
    have hD2 := hD (f2 + c.length + 2)
    rw [show f2 + c.length + 2 + 2 = f2 + c.length + 4 from rfl] at hD2
    rw [lexLoop_step_ne (F + 1 + 1 + 1) (f2 + c.length + 4) hA2 (by decide)]
    rw [lexLoop_step_ne (F + 1 + 1) (f2 + c.length + 4) hBC (by decide)]
    rw [lexLoop_step_eof (F + 1) (f2 + c.length + 4) hD2 rfl]
  unfold lexString Lexer.lex
  have hTF : 2 * (Lexer.new ('!' :: '#' :: (c ++ '\n' :: ['!']))).sourceLength
      + 24 = (c.length + 28) + c.length + 4 := by
    simp [Lexer.new]
    omega
  rw [hTF]
  exact hloop _ _

theorem lexString_slash_bang (c : List Char) (hnc : '\n' ∉ c) :
    lexString ('!' :: '/' :: '/' :: (c ++ '\n' :: ['!'])) =
      .ok [⟨.BANG, ['!']⟩, ⟨.BANG, ['!']⟩, ⟨.EOF, "(EOF)".toList⟩] := by
  have hA : ∀ f, tokenize (f + 2)
      (Lexer.new ('!' :: '/' :: '/' :: (c ++ '\n' :: ['!']))) =
      .ok (⟨.BANG, ['!']⟩,
        ⟨'!' :: '/' :: '/' :: (c ++ '\n' :: ['!']), [⟨.BANG, ['!']⟩], ⟨0, 1⟩, 1,
         ('!' :: '/' :: '/' :: (c ++ '\n' :: ['!'])).length, false⟩) := by
    intro f
    have hcur0 :
        (Lexer.new ('!' :: '/' :: '/' :: (c ++ '\n' :: ['!']))).currentChar =
        some '!' := rfl
    have hew0 := eatWhitespace_nospace f hcur0 (by decide)
    rw [tokenize_at_bang f _ hcur0 hew0]
    have hnx0 := nextChar_normal
      (l := { Lexer.new ('!' :: '/' :: '/' :: (c ++ '\n' :: ['!'])) with
              tokens :=
                (Lexer.new ('!' :: '/' :: '/' :: (c ++ '\n' :: ['!']))).tokens
                ++ [(⟨.BANG, ['!']⟩ : Token)] })
      (c := '!') rfl (by simp [Lexer.new]) rfl
    rw [if_neg (show ¬ ('!' : Char) = '\n' from by decide)] at hnx0
    simp only [emitToken]
    rw [nextCharD_of_ok hnx0]
    simp [Lexer.new, LexerPosition.nextChar]
  have hB := fun f => tokenize_slash_comment f
    (⟨'!' :: '/' :: '/' :: (c ++ '\n' :: ['!']), [⟨.BANG, ['!']⟩], ⟨0, 1⟩, 1,
      ('!' :: '/' :: '/' :: (c ++ '\n' :: ['!'])).length, false⟩ : Lexer)
    c ['!'] (by simp) rfl rfl hnc (by simp)
  have hdropC :
      ('!' :: '/' :: '/' :: (c ++ '\n' :: ['!'])).drop (1 + c.length + 3) =
      ['!'] := by
    have h1 :
        ('!' :: '/' :: '/' :: (c ++ '\n' :: ['!'])).drop (1 + c.length + 3) =
        (c ++ '\n' :: ['!']).drop (c.length + 1) := by
      rw [show 1 + c.length + 3 = (c.length + 1) + 3 from by omega]
      rfl
    rw [h1]
    rw [show c ++ '\n' :: ['!'] = (c ++ ['\n']) ++ ['!'] from by simp]
    rw [show c.length + 1 = (c ++ ['\n']).length from by simp]
    exact List.drop_left _ _
  have hC : ∀ f, tokenize (f + 2)
      (⟨'!' :: '/' :: '/' :: (c ++ '\n' :: ['!']), [⟨.BANG, ['!']⟩],
        (posFold ⟨0, 1⟩ ('/' :: '/' :: c)).nextLine, 1 + c.length + 3,
        ('!' :: '/' :: '/' :: (c ++ '\n' :: ['!'])).length, false⟩ : Lexer) =
      .ok (⟨.BANG, ['!']⟩,
        ⟨'!' :: '/' :: '/' :: (c ++ '\n' :: ['!']),
         [⟨.BANG, ['!']⟩, ⟨.BANG, ['!']⟩],
         ((posFold ⟨0, 1⟩ ('/' :: '/' :: c)).nextLine).nextChar,
         1 + c.length + 3 + 1,
         ('!' :: '/' :: '/' :: (c ++ '\n' :: ['!'])).length, true⟩) := by
    intro f
    have hcur2 : (⟨'!' :: '/' :: '/' :: (c ++ '\n' :: ['!']), [⟨.BANG, ['!']⟩],
        (posFold ⟨0, 1⟩ ('/' :: '/' :: c)).nextLine, 1 + c.length + 3,
        ('!' :: '/' :: '/' :: (c ++ '\n' :: ['!'])).length,
        false⟩ : Lexer).currentChar = some '!' := by
      have hcc : (⟨'!' :: '/' :: '/' :: (c ++ '\n' :: ['!']),
          [⟨.BANG, ['!']⟩],
          (posFold ⟨0, 1⟩ ('/' :: '/' :: c)).nextLine, 1 + c.length + 3,
          ('!' :: '/' :: '/' :: (c ++ '\n' :: ['!'])).length,
          false⟩ : Lexer).currentChar =
          ('!' :: '/' :: '/' :: (c ++ '\n' :: ['!']))[1 + c.length + 3]? := rfl
      rw [hcc]
      exact getElem_of_drop_cons hdropC
    have hew2 := eatWhitespace_nospace f hcur2 (by decide)
    rw [tokenize_at_bang f _ hcur2 hew2]
    simp only [emitToken]
    have hnx2 := nextChar_flip
      (l := { (⟨'!' :: '/' :: '/' :: (c ++ '\n' :: ['!']), [⟨.BANG, ['!']⟩],
          (posFold ⟨0, 1⟩ ('/' :: '/' :: c)).nextLine, 1 + c.length + 3,
          ('!' :: '/' :: '/' :: (c ++ '\n' :: ['!'])).length,
          false⟩ : Lexer) with
          tokens := [(⟨.BANG, ['!']⟩ : Token)] ++ [(⟨.BANG, ['!']⟩ : Token)] })
      rfl (by simp; omega)
    rw [nextCharD_of_ok hnx2]
    rfl
  have hD : ∀ f, tokenize (f + 2)
      (⟨'!' :: '/' :: '/' :: (c ++ '\n' :: ['!']),
        [⟨.BANG, ['!']⟩, ⟨.BANG, ['!']⟩],
        ((posFold ⟨0, 1⟩ ('/' :: '/' :: c)).nextLine).nextChar,
        1 + c.length + 3 + 1,
        ('!' :: '/' :: '/' :: (c ++ '\n' :: ['!'])).length, true⟩ : Lexer) =
      .ok (⟨.EOF, "(EOF)".toList⟩,
        ⟨'!' :: '/' :: '/' :: (c ++ '\n' :: ['!']),
         [⟨.BANG, ['!']⟩, ⟨.BANG, ['!']⟩, ⟨.EOF, "(EOF)".toList⟩],
         ((posFold ⟨0, 1⟩ ('/' :: '/' :: c)).nextLine).nextChar,
         1 + c.length + 3 + 1,
         ('!' :: '/' :: '/' :: (c ++ '\n' :: ['!'])).length, true⟩) := by
    intro f
    have hcur3 := currentChar_of_reachedEnd
      (l := ⟨'!' :: '/' :: '/' :: (c ++ '\n' :: ['!']),
        [⟨.BANG, ['!']⟩, ⟨.BANG, ['!']⟩],
        ((posFold ⟨0, 1⟩ ('/' :: '/' :: c)).nextLine).nextChar,
        1 + c.length + 3 + 1,
        ('!' :: '/' :: '/' :: (c ++ '\n' :: ['!'])).length, true⟩) rfl
    have hew3 := eatWhitespace_nospace f hcur3 (by decide)
    rw [tokenize_at_eof f _ hcur3 hew3]
    simp only [emitToken]
    rw [nextCharD_of_error (nextChar_end_error rfl
      (by first | (simp; omega) | simp))]
    rfl
  have hloop : ∀ F f2, lexLoop (F + 1 + 1 + 1 + 1) (f2 + c.length + 5)
      (Lexer.new ('!' :: '/' :: '/' :: (c ++ '\n' :: ['!']))) =
      .ok [⟨.BANG, ['!']⟩, ⟨.BANG, ['!']⟩, ⟨.EOF, "(EOF)".toList⟩] := by
    intro F f2
    have hA2 := hA (f2 + c.length + 3)
    rw [show f2 + c.length + 3 + 2 = f2 + c.length + 5 from rfl] at hA2
    have hB2 := hB f2
    have hC2 := hC (f2 + c.length + 2)
    rw [show f2 + c.length + 2 + 2 = f2 + c.length + 4 from rfl] at hC2
    have hBC := hB2.trans hC2
    have hD2 := hD (f2 + c.length + 3)
    rw [show f2 + c.length + 3 + 2 = f2 + c.length + 5 from rfl] at hD2
    rw [lexLoop_step_ne (F + 1 + 1 + 1) (f2 + c.length + 5) hA2 (by decide)]
    rw [lexLoop_step_ne (F + 1 + 1) (f2 + c.length + 5) hBC (by decide)]
    rw [lexLoop_step_eof (F + 1) (f2 + c.length + 5) hD2 rfl]
  unfold lexString Lexer.lex
  have hTF :
      2 * (Lexer.new ('!' :: '/' :: '/' :: (c ++ '\n' :: ['!']))).sourceLength
      + 24 = (c.length + 29) + c.length + 5 := by
    simp [Lexer.new]
    omega
  rw [hTF]
  exact hloop _ _

/-- Claim C5 counterexample: a single-line comment that reaches end of input
without a terminating newline does not contribute zero tokens — the whole
lex operation aborts (eatCurrentLine runs off the end of the source), so the
token before the comment is lost as well. -/
theorem C5_comment_at_eof_aborts :
    lexString ['!', '#', 'a'] =
      .error "Unhandled end of input looking for the next character" := rfl

/-- Claim C5 as amended: for every comment body without a newline, a
single-line comment introduced by `#` or by `//` and terminated by a newline
contributes zero tokens, and a `!` token before the comment line and one
after it both lex normally — the comment boundary is exactly the newline. A
comment that reaches end of input without a newline instead aborts the lex
operation (see the counterexample). -/
theorem C5_comment_elision (c : List Char) (hnc : '\n' ∉ c) :
    lexString ('!' :: '#' :: (c ++ '\n' :: ['!'])) =
      .ok [⟨.BANG, ['!']⟩, ⟨.BANG, ['!']⟩, ⟨.EOF, "(EOF)".toList⟩] ∧
    lexString ('!' :: '/' :: '/' :: (c ++ '\n' :: ['!'])) =
      .ok [⟨.BANG, ['!']⟩, ⟨.BANG, ['!']⟩, ⟨.EOF, "(EOF)".toList⟩] :=
  ⟨lexString_hash_bang c hnc, lexString_slash_bang c hnc⟩

theorem C5_witness :
    lexString ('!' :: '#' ::
        (" Inline Comment".toList ++ '\n' :: ['!'])) =
      .ok [⟨.BANG, ['!']⟩, ⟨.BANG, ['!']⟩, ⟨.EOF, "(EOF)".toList⟩] ∧
    lexString ('!' :: '/' :: '/' ::
        (" Inline Comment".toList ++ '\n' :: ['!'])) =
      .ok [⟨.BANG, ['!']⟩, ⟨.BANG, ['!']⟩, ⟨.EOF, "(EOF)".toList⟩] :=
  C5_comment_elision " Inline Comment".toList (by decide)
